import Mathlib

/-!
Shallow embedding of the HPMS process scheduler (`src/HPMS/Shared_Memory.c`,
scheduler half): the `Process` record, the four scheduling algorithms
(preemptive priority, FCFS, SJF, round robin), the event recorder of the
preemptive algorithm, and `calculate_metrics`.  C `int` fields are modelled
as `Int`; the C `float` metric fields are modelled as `ℚ` (every value the
program ever stores in them is an integer or a ratio of small integers, so
no rounding behaviour is load-bearing for the claims below).  The display
only fields `name` and `medical_class` carry no scheduling information and
are omitted.  The tick loops of the C code (`while (completed < n)`) are
modelled with an explicit fuel parameter: `none` means the loop did not
finish within the given number of iterations.
-/

/-- `#define MAX_PROCESSES 20` -/
def MAX_PROCESSES : Nat := 20

/-- `#define TIME_QUANTUM 4` -/
def TIME_QUANTUM : Int := 4

/-- The `Process` struct (display-only strings omitted). -/
structure Job where
  pid : Int
  priority : Int
  arrival_time : Int
  burst_time : Int
  remaining_time : Int
  completion_time : Int
  turnaround_time : Int
  waiting_time : Int
  response_time : Int
  start_time : Int
deriving DecidableEq, Repr

/-- A job as the scenario initializers build it: `remaining_time = burst_time`,
completion/turnaround/waiting zero, `response_time = start_time = -1`. -/
def mkJob (pid priority arrival burst : Int) : Job :=
  ⟨pid, priority, arrival, burst, burst, 0, 0, 0, -1, -1⟩

/-- The `Metrics` struct. -/
structure Metrics where
  avg_response_time : ℚ
  avg_turnaround_time : ℚ
  avg_waiting_time : ℚ
  emergency_response_min : Int
  emergency_response_max : Int
  cpu_utilization : ℚ
  context_switches : Nat
  throughput : ℚ
  total_time : Int
deriving DecidableEq, Repr

/-- Event kinds of the preemptive priority scheduler
(`0 = start, 1 = preempt, 2 = complete`). -/
inductive EvKind where
  | start : EvKind
  | preempt : EvKind
  | complete : EvKind
deriving DecidableEq, Repr

/-- One recorded event `(time, job index, kind)`. -/
structure Event where
  time : Int
  pid : Nat
  kind : EvKind
deriving DecidableEq, Repr

/-- The accumulator loop of `calculate_metrics`: running sums of response,
turnaround and waiting times, the completed count, the total burst of
completed jobs, and the emergency min/max trackers (seeded 999 and 0). -/
def metricsScan :
    List Job → Int → Int → Int → Nat → Int → Int → Int →
      Int × Int × Int × Nat × Int × Int × Int
  | [], sr, st, sw, c, tb, mn, mx => (sr, st, sw, c, tb, mn, mx)
  | p :: ps, sr, st, sw, c, tb, mn, mx =>
      if 0 < p.completion_time then
        let mn1 := if p.priority = 1 ∧ p.response_time < mn then p.response_time else mn
        let mx1 := if p.priority = 1 ∧ mx < p.response_time then p.response_time else mx
        metricsScan ps (sr + p.response_time) (st + p.turnaround_time)
          (sw + p.waiting_time) (c + 1) (tb + p.burst_time) mn1 mx1
      else
        metricsScan ps sr st sw c tb mn mx

/-- `calculate_metrics`: averages over completed jobs, emergency response
extrema over completed priority-1 jobs, CPU utilization, throughput.
`context_switches` is left 0, as in the C struct initializer; every caller
overwrites it afterwards. -/
def calculate_metrics (procs : List Job) (total_time : Int) : Metrics :=
  match metricsScan procs 0 0 0 0 0 999 0 with
  | (sr, st, sw, c, tb, mn, mx) =>
      { avg_response_time := if 0 < c then (sr : ℚ) / (c : ℚ) else 0
        avg_turnaround_time := if 0 < c then (st : ℚ) / (c : ℚ) else 0
        avg_waiting_time := if 0 < c then (sw : ℚ) / (c : ℚ) else 0
        emergency_response_min := if mn = 999 then 0 else mn
        emergency_response_max := mx
        cpu_utilization := if 0 < total_time then (tb : ℚ) / (total_time : ℚ) * 100 else 0
        context_switches := 0
        throughput := if 0 < total_time then (c : ℚ) / (total_time : ℚ) else 0
        total_time := total_time }

/-- Generic fuelled `while (cont) { s := step s }` loop shared by the three
tick-driven schedulers; `none` = fuel ran out before the loop condition
became false. -/
def simLoop (step : σ → σ) (cont : σ → Bool) : Nat → σ → Option σ
  | 0, s => if cont s then none else some s
  | fuel + 1, s => if cont s then simLoop step cont fuel (step s) else some s

/-! ### Preemptive priority scheduling -/

/-- Loop state of `priority_scheduling`. -/
structure PrioState where
  procs : List Job
  time : Int
  completed : Nat
  ctx : Nat
  isRunning : Option Nat
  events : List Event
deriving DecidableEq, Repr

/-- The selection scan of `priority_scheduling`: a linear pass keeping the
first job that is arrived, unfinished and of strictly smaller priority
number than the best seen so far (seeded 999). -/
def prioSelectAux (t : Int) :
    List (Nat × Job) → Option (Nat × Job) → Int → Option (Nat × Job)
  | [], best, _ => best
  | (i, p) :: rest, best, bp =>
      if p.arrival_time ≤ t ∧ 0 < p.remaining_time ∧ p.priority < bp then
        prioSelectAux t rest (some (i, p)) p.priority
      else
        prioSelectAux t rest best bp

/-- Selected job (index and record) of the priority scan, `none` if no job is
eligible. -/
def prioSelect (ps : List Job) (t : Int) : Option (Nat × Job) :=
  prioSelectAux t ps.enum none 999

/-- One iteration of the `while (completed < n)` body of
`priority_scheduling`. -/
def prioStep (s : PrioState) : PrioState :=
  match prioSelect s.procs s.time with
  | none => { s with time := s.time + 1 }
  | some (next, p) =>
      let switch : Bool := s.isRunning ≠ some next
      let preemptEvs : List Event :=
        match s.isRunning with
        | some r =>
            match s.procs[r]? with
            | some q =>
                if switch ∧ 0 < q.remaining_time then [⟨s.time, r, EvKind.preempt⟩] else []
            | none => []
        | none => []
      let startEvs : List Event := if switch then [⟨s.time, next, EvKind.start⟩] else []
      let p1 := { p with
        start_time := if switch ∧ p.start_time = -1 then s.time else p.start_time,
        response_time := if switch ∧ p.start_time = -1 then s.time - p.arrival_time
                         else p.response_time }
      let ctx1 := if switch then s.ctx + 1 else s.ctx
      let t1 := s.time + 1
      let r1 : Int := p1.remaining_time - 1
      let p2 := { p1 with
        remaining_time := r1,
        completion_time := if r1 = 0 then t1 else p1.completion_time,
        turnaround_time := if r1 = 0 then t1 - p1.arrival_time else p1.turnaround_time,
        waiting_time := if r1 = 0 then t1 - p1.arrival_time - p1.burst_time
                        else p1.waiting_time }
      let doneEvs : List Event := if r1 = 0 then [⟨t1, next, EvKind.complete⟩] else []
      { procs := s.procs.set next p2
        time := t1
        completed := if r1 = 0 then s.completed + 1 else s.completed
        ctx := ctx1
        isRunning := if r1 = 0 then none else some next
        events := s.events ++ preemptEvs ++ startEvs ++ doneEvs }

/-- Loop condition `completed < n`. -/
def prioCont (s : PrioState) : Bool := decide (s.completed < s.procs.length)

/-- Initial loop state of `priority_scheduling`. -/
def prioInit (ps : List Job) : PrioState := ⟨ps, 0, 0, 0, none, []⟩

/-- The fuelled main loop of `priority_scheduling`. -/
def prioLoop (fuel : Nat) (s : PrioState) : Option PrioState :=
  simLoop prioStep prioCont fuel s

/-- `priority_scheduling`: final job list, metrics (with `context_switches`
patched in) and the recorded event trace. -/
def priority_scheduling (fuel : Nat) (ps : List Job) :
    Option (List Job × Metrics × List Event) :=
  (prioLoop fuel (prioInit ps)).map fun s =>
    (s.procs, { calculate_metrics s.procs s.time with context_switches := s.ctx }, s.events)

/-- Post-run job list of the priority scheduler (empty if fuel ran out). -/
def prioProcs (fuel : Nat) (ps : List Job) : List Job :=
  match priority_scheduling fuel ps with
  | some r => r.1
  | none => []

/-- The priority scheduler loops forever on `ps`: no amount of fuel finishes it. -/
def prioDiverges (ps : List Job) : Prop :=
  ∀ fuel, priority_scheduling fuel ps = none

/-! ### FCFS scheduling -/

/-- The `for` loop of `fcfs_scheduling`: serve jobs in registry order,
idling up to each arrival; returns the served list, the final clock and
the dispatch count. -/
def fcfsGo : Int → List Job → List Job × Int × Nat
  | t, [] => ([], t, 0)
  | t, p :: ps =>
      let t0 := if t < p.arrival_time then p.arrival_time else t
      let ct := t0 + p.burst_time
      let p1 := { p with start_time := t0, response_time := t0 - p.arrival_time,
                         completion_time := ct, turnaround_time := ct - p.arrival_time,
                         waiting_time := ct - p.arrival_time - p.burst_time,
                         remaining_time := 0 }
      let r := fcfsGo ct ps
      (p1 :: r.1, r.2.1, r.2.2 + 1)

/-- `fcfs_scheduling`. -/
def fcfs_scheduling (ps : List Job) : List Job × Metrics :=
  let r := fcfsGo 0 ps
  (r.1, { calculate_metrics r.1 r.2.1 with context_switches := r.2.2 })

/-- Post-run job list of the FCFS scheduler. -/
def fcfsProcs (ps : List Job) : List Job := (fcfs_scheduling ps).1

/-! ### SJF scheduling -/

/-- Loop state of `sjf_scheduling`; `flags` is the `is_completed` array. -/
structure SjfState where
  procs : List Job
  flags : List Bool
  time : Int
  completed : Nat
  ctx : Nat
deriving DecidableEq, Repr

/-- The selection scan of `sjf_scheduling`: first arrived, not yet completed
job of strictly smallest burst seen so far (seeded 999999). -/
def sjfSelectAux (t : Int) :
    List (Nat × Job × Bool) → Option (Nat × Job) → Int → Option (Nat × Job)
  | [], best, _ => best
  | (i, p, b) :: rest, best, sh =>
      if p.arrival_time ≤ t ∧ b = false ∧ p.burst_time < sh then
        sjfSelectAux t rest (some (i, p)) p.burst_time
      else
        sjfSelectAux t rest best sh

/-- Selected job of the SJF scan. -/
def sjfSelect (ps : List Job) (fl : List Bool) (t : Int) : Option (Nat × Job) :=
  sjfSelectAux t (ps.zip fl).enum none 999999

/-- One iteration of the `while (completed < n)` body of `sjf_scheduling`:
either an idle tick or a full non-preemptive run of the selected job. -/
def sjfStep (s : SjfState) : SjfState :=
  match sjfSelect s.procs s.flags s.time with
  | none => { s with time := s.time + 1 }
  | some (next, p) =>
      let ct := s.time + p.burst_time
      let p1 := { p with start_time := s.time, response_time := s.time - p.arrival_time,
                         completion_time := ct, turnaround_time := ct - p.arrival_time,
                         waiting_time := ct - p.arrival_time - p.burst_time,
                         remaining_time := 0 }
      { procs := s.procs.set next p1
        flags := s.flags.set next true
        time := ct
        completed := s.completed + 1
        ctx := s.ctx + 1 }

/-- Loop condition `completed < n`. -/
def sjfCont (s : SjfState) : Bool := decide (s.completed < s.procs.length)

/-- Initial loop state of `sjf_scheduling` (`is_completed` all false). -/
def sjfInit (ps : List Job) : SjfState :=
  ⟨ps, List.replicate ps.length false, 0, 0, 0⟩

/-- The fuelled main loop of `sjf_scheduling`. -/
def sjfLoop (fuel : Nat) (s : SjfState) : Option SjfState :=
  simLoop sjfStep sjfCont fuel s

/-- `sjf_scheduling`. -/
def sjf_scheduling (fuel : Nat) (ps : List Job) : Option (List Job × Metrics) :=
  (sjfLoop fuel (sjfInit ps)).map fun s =>
    (s.procs, { calculate_metrics s.procs s.time with context_switches := s.ctx })

/-- Post-run job list of the SJF scheduler (empty if fuel ran out). -/
def sjfProcs (fuel : Nat) (ps : List Job) : List Job :=
  match sjf_scheduling fuel ps with
  | some r => r.1
  | none => []

/-- The SJF scheduler loops forever on `ps`. -/
def sjfDiverges (ps : List Job) : Prop :=
  ∀ fuel, sjf_scheduling fuel ps = none

/-! ### Round robin scheduling -/

/-- Loop state of `round_robin_scheduling`.  `queue` is the live region
`queue[front..rear)` of the C array; `rear` is the total number of
`queue[rear++]` writes performed so far (the C `rear` index, which is never
reset), so the write indices used so far are `0..rear-1`. -/
structure RRState where
  procs : List Job
  inq : List Bool
  queue : List Nat
  rear : Nat
  time : Int
  completed : Nat
  ctx : Nat
deriving DecidableEq, Repr

/-- The arrival scan of `round_robin_scheduling`: walk all jobs in index
order (`i` is the index of the head of the remaining list) and collect those
with `arrival_time ≤ t`, `remaining_time > 0`, not already in the queue and
different from `skip`; returns the updated `in_queue` flags and the list of
newly enqueued indices, in index order. -/
def rrScan (t : Int) (skip : Option Nat) : Nat → List Job → List Bool → List Bool × List Nat
  | _, [], bs => (bs, [])
  | _, _ :: _, [] => ([], [])
  | i, p :: ps, b :: bs =>
      let r := rrScan t skip (i + 1) ps bs
      if p.arrival_time ≤ t ∧ 0 < p.remaining_time ∧ b = false ∧ skip ≠ some i then
        (true :: r.1, i :: r.2)
      else
        (b :: r.1, r.2)

/-- The initial enqueue loop of `round_robin_scheduling`: every job with
`arrival_time == 0`. -/
def rrInitScan : Nat → List Job → List Bool × List Nat
  | _, [] => ([], [])
  | i, p :: ps =>
      let r := rrInitScan (i + 1) ps
      if p.arrival_time = 0 then (true :: r.1, i :: r.2) else (false :: r.1, r.2)

/-- Initial loop state of `round_robin_scheduling`. -/
def rrInit (ps : List Job) : RRState :=
  let r := rrInitScan 0 ps
  ⟨ps, r.1, r.2, r.2.length, 0, 0, 0⟩

/-- One iteration of the `while (completed < n)` body of
`round_robin_scheduling`: an idle tick plus arrival scan when the queue is
empty, otherwise dequeue, run for `min(remaining, quantum)`, scan arrivals,
then complete or requeue. -/
def rrStep (s : RRState) : RRState :=
  match s.queue with
  | [] =>
      let t1 := s.time + 1
      let sc := rrScan t1 none 0 s.procs s.inq
      { s with time := t1, inq := sc.1, queue := sc.2, rear := s.rear + sc.2.length }
  | idx :: rest =>
      match s.procs[idx]? with
      | none => { s with queue := rest }
      | some p =>
          let inq1 := s.inq.set idx false
          let p1 := { p with
            start_time := if p.start_time = -1 then s.time else p.start_time,
            response_time := if p.start_time = -1 then s.time - p.arrival_time
                             else p.response_time }
          let exec := if TIME_QUANTUM < p1.remaining_time then TIME_QUANTUM else p1.remaining_time
          let r1 := p1.remaining_time - exec
          let t1 := s.time + exec
          let procs1 := s.procs.set idx { p1 with remaining_time := r1 }
          let sc := rrScan t1 (some idx) 0 procs1 inq1
          let p2 := { p1 with
            remaining_time := r1,
            completion_time := if r1 = 0 then t1 else p1.completion_time,
            turnaround_time := if r1 = 0 then t1 - p1.arrival_time else p1.turnaround_time,
            waiting_time := if r1 = 0 then t1 - p1.arrival_time - p1.burst_time
                            else p1.waiting_time }
          if r1 = 0 then
            { procs := procs1.set idx p2, inq := sc.1, queue := rest ++ sc.2,
              rear := s.rear + sc.2.length, time := t1,
              completed := s.completed + 1, ctx := s.ctx + 1 }
          else
            { procs := procs1, inq := sc.1.set idx true, queue := rest ++ sc.2 ++ [idx],
              rear := s.rear + sc.2.length + 1, time := t1,
              completed := s.completed, ctx := s.ctx + 1 }

/-- Loop condition `completed < n`. -/
def rrCont (s : RRState) : Bool := decide (s.completed < s.procs.length)

/-- The fuelled main loop of `round_robin_scheduling`. -/
def rrLoop (fuel : Nat) (s : RRState) : Option RRState :=
  simLoop rrStep rrCont fuel s

/-- `round_robin_scheduling`. -/
def round_robin_scheduling (fuel : Nat) (ps : List Job) : Option (List Job × Metrics) :=
  (rrLoop fuel (rrInit ps)).map fun s =>
    (s.procs, { calculate_metrics s.procs s.time with context_switches := s.ctx })

/-- Post-run job list of the round robin scheduler (empty if fuel ran out). -/
def rrProcs (fuel : Nat) (ps : List Job) : List Job :=
  match round_robin_scheduling fuel ps with
  | some r => r.1
  | none => []

/-- Final round robin loop state, for inspecting the `rear` write counter. -/
def rrFinalState (fuel : Nat) (ps : List Job) : Option RRState :=
  rrLoop fuel (rrInit ps)

/-! ### Scenario driver -/

/-- `run_scenario` invokes all four algorithms, each on its own copy of the
registry, with no size or validity check of any kind. -/
structure ScenarioResult where
  prio : Option (List Job × Metrics × List Event)
  fcfs : List Job × Metrics
  sjf : Option (List Job × Metrics)
  rr : Option (List Job × Metrics)
deriving DecidableEq, Repr

/-- `run_scenario` (reporting glue omitted): run the four algorithms on
independent copies of the job list.  The C driver's fixed
`Process ...[MAX_PROCESSES]` arrays are modelled as unbounded lists, so a
registry beyond the 20-slot capacity shows up here as a list longer than
`MAX_PROCESSES` being processed in full, where the C program instead writes
past the end of its arrays. -/
def run_scenario (fuel : Nat) (ps : List Job) : ScenarioResult :=
  ⟨priority_scheduling fuel ps, fcfs_scheduling ps, sjf_scheduling fuel ps,
   round_robin_scheduling fuel ps⟩

/-- The registry built by `init_emergency_scenario` (12 jobs). -/
def emergencyRegistry : List Job :=
  [mkJob 0 5 0 30, mkJob 1 1 5 3, mkJob 2 1 7 3, mkJob 3 1 9 3,
   mkJob 4 1 11 3, mkJob 5 1 13 3, mkJob 6 1 15 3, mkJob 7 2 8 10,
   mkJob 8 3 12 4, mkJob 9 4 15 8, mkJob 10 2 18 9, mkJob 11 5 20 25]

/-! ### Specification-side predicates -/

/-- A job descriptor the specification calls valid: non-negative arrival,
positive burst. -/
def ValidJob (p : Job) : Prop := 0 ≤ p.arrival_time ∧ 0 < p.burst_time

instance (p : Job) : Decidable (ValidJob p) := by unfold ValidJob; infer_instance

/-- A job in its pristine pre-run shape: `remaining_time` equal to the burst,
no completion recorded. -/
def PristineJob (p : Job) : Prop :=
  p.remaining_time = p.burst_time ∧ p.completion_time = 0

instance (p : Job) : Decidable (PristineJob p) := by unfold PristineJob; infer_instance

/-- The timing-field consistency demanded of every completed job:
`turnaround = completion - arrival`, `waiting = turnaround - burst`,
`waiting ≥ 0` and `turnaround ≥ burst`. -/
def JobConsistent (p : Job) : Prop :=
  p.turnaround_time = p.completion_time - p.arrival_time ∧
  p.waiting_time = p.turnaround_time - p.burst_time ∧
  0 ≤ p.waiting_time ∧
  p.burst_time ≤ p.turnaround_time

instance (p : Job) : Decidable (JobConsistent p) := by unfold JobConsistent; infer_instance

/-- Number of completed jobs in a post-run list, as `calculate_metrics`
counts them (`completion_time > 0`). -/
def completedCount (procs : List Job) : Nat :=
  procs.countP (fun p => decide (0 < p.completion_time))

/-- Response times of the completed emergency-class (`priority == 1`) jobs,
in list order. -/
def emergencyResponses (procs : List Job) : List Int :=
  (procs.filter (fun p => decide (p.priority = 1 ∧ 0 < p.completion_time))).map
    (fun p => p.response_time)

/-- The all-zero metrics record. -/
def zeroMetrics : Metrics := ⟨0, 0, 0, 0, 0, 0, 0, 0, 0⟩

/-- The three-job example scenario of the specification:
`P0{arrival=0,burst=5,priority=5}`, `P1{arrival=2,burst=2,priority=1}`,
`P2{arrival=4,burst=3,priority=3}`. -/
def exampleRegistry : List Job := [mkJob 0 5 0 5, mkJob 1 1 2 2, mkJob 2 3 4 3]

/-- The expected event trace of the example scenario. -/
def exampleTrace : List Event :=
  [⟨0, 0, EvKind.start⟩, ⟨2, 0, EvKind.preempt⟩, ⟨2, 1, EvKind.start⟩,
   ⟨4, 1, EvKind.complete⟩, ⟨4, 2, EvKind.start⟩, ⟨7, 2, EvKind.complete⟩,
   ⟨7, 0, EvKind.start⟩, ⟨10, 0, EvKind.complete⟩]

/-- A registry one job above the fixed 20-job capacity. -/
def bigRegistry : List Job := List.replicate 21 (mkJob 0 1 0 1)

/-- An (invalid) job with negative arrival time. -/
def negArrivalJob : Job := mkJob 0 1 (-3) 2

/-- An (invalid) job with zero burst time. -/
def zeroBurstJob : Job := mkJob 0 1 0 0

/-- A completed emergency job whose response time hits the 999 sentinel of
`calculate_metrics`. -/
def sentinelJob : Job := { mkJob 0 1 0 3 with completion_time := 1, response_time := 999 }

/-- A completed non-emergency job with nonzero response time, for probing
`calculate_metrics` at `total_time = 0`. -/
def lateMetricsJob : Job := { mkJob 0 2 0 3 with completion_time := 1, response_time := 4 }

/-- A second completed emergency job, with response time 5. -/
def lateEmergencyJob : Job :=
  { mkJob 1 1 2 3 with completion_time := 9, response_time := 5 }

/-- Concrete mid-run round robin state: job 0 (6 units left) is at the head
of the queue; job 1 arrives at time 3, during job 0's quantum. -/
def rrTestState : RRState :=
  ⟨[mkJob 0 2 0 6, mkJob 1 1 3 2], [true, false], [0], 1, 0, 0, 0⟩

/-- The record SJF writes for a dispatched job: started now, run to
completion atomically. -/
def sjfDoneJob (t : Int) (p : Job) : Job :=
  { p with
    start_time := t,
    response_time := t - p.arrival_time,
    completion_time := t + p.burst_time,
    turnaround_time := t + p.burst_time - p.arrival_time,
    waiting_time := t + p.burst_time - p.arrival_time - p.burst_time,
    remaining_time := 0 }

/-- Concrete SJF decision point: two jobs available at time 0, with bursts 5
and 2. -/
def sjfTestState : SjfState := sjfInit [mkJob 0 3 0 5, mkJob 1 2 0 2]

/-! ### Run invariants: preemptive priority -/

/-- Invariant of a single job record during a tick-driven run at clock `t`:
remaining work is between 0 and the burst, executed work only accumulates
after arrival, and completed jobs carry consistent, final timing fields. -/
def JobInv (t : Int) (p : Job) : Prop :=
  0 ≤ p.remaining_time ∧ p.remaining_time ≤ p.burst_time ∧
  (p.remaining_time < p.burst_time → p.arrival_time + (p.burst_time - p.remaining_time) ≤ t) ∧
  (0 < p.completion_time → p.remaining_time = 0 ∧
    p.turnaround_time = p.completion_time - p.arrival_time ∧
    p.waiting_time = p.turnaround_time - p.burst_time ∧
    p.arrival_time + p.burst_time ≤ p.completion_time) ∧
  (p.remaining_time = 0 → 0 < p.completion_time) ∧
  0 ≤ p.arrival_time ∧ 0 < p.burst_time

/-- A job is done when its remaining time hits zero. -/
def remZero (p : Job) : Bool := decide (p.remaining_time = 0)

/-- Loop invariant of `priority_scheduling`. -/
def PrioInv (s : PrioState) : Prop :=
  0 ≤ s.time ∧ (∀ p ∈ s.procs, JobInv s.time p) ∧
  s.completed = s.procs.countP remZero

/-- The record the priority step writes for the selected job (`rt`/`st` are
the possibly-updated response and start fields). -/
def prioDoneJob (t : Int) (p : Job) (rt st : Int) : Job :=
  ⟨p.pid, p.priority, p.arrival_time, p.burst_time, p.remaining_time - 1,
   (if p.remaining_time - 1 = 0 then t + 1 else p.completion_time),
   (if p.remaining_time - 1 = 0 then t + 1 - p.arrival_time else p.turnaround_time),
   (if p.remaining_time - 1 = 0 then t + 1 - p.arrival_time - p.burst_time
    else p.waiting_time),
   rt, st⟩

/-- Loop invariant of `sjf_scheduling`: flags mirror completion, and every
completed job carries consistent final timing fields. -/
def SjfInv (s : SjfState) : Prop :=
  0 ≤ s.time ∧ s.flags.length = s.procs.length ∧
  s.completed = s.flags.countP (fun b => b) ∧
  (∀ (j : Nat) (p : Job) (b : Bool), s.procs[j]? = some p → s.flags[j]? = some b →
    (0 ≤ p.arrival_time ∧ 0 < p.burst_time) ∧
    (b = false → p.completion_time = 0) ∧
    (b = true → 0 < p.completion_time ∧
      p.turnaround_time = p.completion_time - p.arrival_time ∧
      p.waiting_time = p.turnaround_time - p.burst_time ∧
      p.arrival_time + p.burst_time ≤ p.completion_time))

/-! ### Run invariants: round robin -/

/-- The execution amount of one round robin dispatch:
`min(remaining_time, TIME_QUANTUM)` as the C code computes it. -/
def rrExec (p : Job) : Int :=
  if TIME_QUANTUM < p.remaining_time then TIME_QUANTUM else p.remaining_time

/-- The dispatched job after its quantum, before the completion check
(start/response stamped on first dispatch, remaining reduced). -/
def rrTouchJob (t : Int) (p : Job) : Job :=
  { p with
    start_time := if p.start_time = -1 then t else p.start_time,
    response_time := if p.start_time = -1 then t - p.arrival_time else p.response_time,
    remaining_time := p.remaining_time - rrExec p }

/-- The dispatched job with completion fields written when it finished. -/
def rrFinJob (t : Int) (p : Job) : Job :=
  { rrTouchJob t p with
    completion_time := if p.remaining_time - rrExec p = 0 then t + rrExec p
                       else p.completion_time,
    turnaround_time := if p.remaining_time - rrExec p = 0 then t + rrExec p - p.arrival_time
                       else p.turnaround_time,
    waiting_time := if p.remaining_time - rrExec p = 0
                    then t + rrExec p - p.arrival_time - p.burst_time
                    else p.waiting_time }

/-- Loop invariant of `round_robin_scheduling`. -/
def RRInv (s : RRState) : Prop :=
  0 ≤ s.time ∧ s.inq.length = s.procs.length ∧
  (∀ p ∈ s.procs, JobInv s.time p) ∧
  s.completed = s.procs.countP remZero ∧
  (∀ (i : Nat) (b : Bool), s.inq[i]? = some b → b = true → i ∈ s.queue) ∧
  (∀ i ∈ s.queue, s.inq[i]? = some true) ∧
  (∀ (i : Nat) (p : Job), i ∈ s.queue → s.procs[i]? = some p →
    0 < p.remaining_time ∧ p.arrival_time ≤ s.time) ∧
  s.queue.Nodup

/-! ### Claim C10: termination -/

/-- Total remaining work of a job list, as a natural number. -/
def sumRemNat (ps : List Job) : Nat :=
  (ps.map (fun p => p.remaining_time.toNat)).sum

/-- Largest arrival time of the registry (0 when empty). -/
def maxArrival : List Job → Int
  | [] => 0
  | p :: ps => max p.arrival_time (maxArrival ps)

/-- A valid job whose priority equals the scheduler's 999 selection seed:
the priority scan can never pick it. -/
def priority999Job : Job := mkJob 0 999 0 1

/-- Strengthened priority loop invariant for termination: arrivals are
bounded by `A` and every priority is below the 999 seed. -/
def PrioTermInv (A : Int) (s : PrioState) : Prop :=
  PrioInv s ∧ ∀ p ∈ s.procs, p.arrival_time ≤ A ∧ p.priority < 999

/-- Termination measure of the priority loop: remaining idle span plus
remaining work. -/
def prioMeasure (A : Int) (s : PrioState) : Nat :=
  (A - s.time).toNat + sumRemNat s.procs

/-- Strengthened SJF loop invariant for termination: arrivals bounded by `A`
and every burst below the 999999 seed. -/
def SjfTermInv (A : Int) (s : SjfState) : Prop :=
  SjfInv s ∧ ∀ p ∈ s.procs, p.arrival_time ≤ A ∧ p.burst_time < 999999

/-- Termination measure of the SJF loop: remaining idle span plus
uncompleted job count. -/
def sjfMeasure (A : Int) (s : SjfState) : Nat :=
  (A - s.time).toNat + (s.procs.length - s.completed)

/-- Strengthened round robin loop invariant for termination: arrivals
bounded by `A`. -/
def RRTermInv (A : Int) (s : RRState) : Prop :=
  RRInv s ∧ ∀ p ∈ s.procs, p.arrival_time ≤ A

/-- Termination measure of the round robin loop: remaining idle span,
twice the remaining work, and one extra unit while the queue is empty. -/
def rrMeasure (A : Int) (s : RRState) : Nat :=
  (A + 1 - s.time).toNat + 2 * sumRemNat s.procs + (if s.queue = [] then 1 else 0)

/-! ### Basic loop lemmas -/

theorem simLoop_of_cont_false {σ : Type} (step : σ → σ) (cont : σ → Bool) (fuel : Nat)
    (s : σ) (h : cont s = false) : simLoop step cont fuel s = some s := by
  cases fuel <;> simp [simLoop, h]

theorem simLoop_succ {σ : Type} (step : σ → σ) (cont : σ → Bool) (fuel : Nat)
    (s : σ) (h : cont s = true) :
    simLoop step cont (fuel + 1) s = simLoop step cont fuel (step s) := by
  simp [simLoop, h]

theorem simLoop_zero_of_cont {σ : Type} (step : σ → σ) (cont : σ → Bool)
    (s : σ) (h : cont s = true) : simLoop step cont 0 s = none := by
  simp [simLoop, h]

/-- If an invariant forces the loop condition to stay true, the loop never
finishes. -/
theorem simLoop_none_of_inv {σ : Type} (step : σ → σ) (cont : σ → Bool)
    (Inv : σ → Prop) (hc : ∀ s, Inv s → cont s = true)
    (hs : ∀ s, Inv s → Inv (step s)) :
    ∀ fuel s, Inv s → simLoop step cont fuel s = none := by
  intro fuel
  induction fuel with
  | zero => intro s h; simp [simLoop, hc s h]
  | succ f ih =>
      intro s h
      rw [simLoop_succ step cont f s (hc s h)]
      exact ih (step s) (hs s h)

/-- If every step under an invariant strictly decreases a `Nat` measure, the
loop finishes once the fuel covers the measure. -/
theorem simLoop_isSome_of_measure {σ : Type} (step : σ → σ) (cont : σ → Bool)
    (Inv : σ → Prop) (μ : σ → Nat)
    (hs : ∀ s, Inv s → cont s = true → Inv (step s) ∧ μ (step s) < μ s) :
    ∀ fuel s, Inv s → μ s ≤ fuel → (simLoop step cont fuel s).isSome := by
  intro fuel
  induction fuel with
  | zero =>
      intro s h hμ
      cases hcont : cont s with
      | false => rw [simLoop_of_cont_false step cont 0 s hcont]; rfl
      | true =>
          exfalso
          have := (hs s h hcont).2
          omega
  | succ f ih =>
      intro s h hμ
      cases hcont : cont s with
      | false => rw [simLoop_of_cont_false step cont _ s hcont]; rfl
      | true =>
          rw [simLoop_succ step cont f s hcont]
          obtain ⟨hi, hlt⟩ := hs s h hcont
          exact ih (step s) hi (by omega)

/-- If an invariant is preserved by the step, a finished loop ends in a state
satisfying it, with the loop condition false. -/
theorem simLoop_some_inv {σ : Type} (step : σ → σ) (cont : σ → Bool)
    (Inv : σ → Prop) (hs : ∀ s, Inv s → cont s = true → Inv (step s)) :
    ∀ fuel s s1, Inv s → simLoop step cont fuel s = some s1 →
      Inv s1 ∧ cont s1 = false := by
  intro fuel
  induction fuel with
  | zero =>
      intro s s1 h hrun
      cases hcont : cont s with
      | false =>
          rw [simLoop_of_cont_false step cont 0 s hcont] at hrun
          cases hrun
          exact ⟨h, hcont⟩
      | true => rw [simLoop_zero_of_cont step cont s hcont] at hrun; cases hrun
  | succ f ih =>
      intro s s1 h hrun
      cases hcont : cont s with
      | false =>
          rw [simLoop_of_cont_false step cont _ s hcont] at hrun
          cases hrun
          exact ⟨h, hcont⟩
      | true =>
          rw [simLoop_succ step cont f s hcont] at hrun
          exact ih (step s) s1 (hs s h hcont) hrun

/-! ### Claim C2: the example trace of the preemptive priority scheduler -/

/-- Claim C2: on the three-job example registry, the preemptive priority
scheduler produces exactly the expected event trace, the expected per-job
response/turnaround/waiting fields, `context_switches = 4` and
`total_time = 10`. -/
theorem C2_priority_example_trace :
    (priority_scheduling 20 exampleRegistry).map (fun r => r.2.2) = some exampleTrace ∧
    (prioProcs 20 exampleRegistry).map
        (fun p => (p.response_time, p.turnaround_time, p.waiting_time)) =
      [(0, 10, 5), (0, 2, 0), (0, 3, 0)] ∧
    (priority_scheduling 20 exampleRegistry).map
        (fun r => (r.2.1.context_switches, r.2.1.total_time)) = some (4, 10) := by
  decide

/-! ### Claim C3: the round robin ready queue overflows its array -/

/-- Claim C3 (refuted, code bug): on the program's own emergency scenario the
round robin run performs 30 `queue[rear++]` writes, so the write index
reaches 29, past the end of the `MAX_PROCESSES = 20` element array; the run
nevertheless "completes" all 12 jobs in the idealized unbounded-queue model. -/
theorem C3_rr_queue_overflow :
    (rrFinalState 200 emergencyRegistry).map (fun s => (s.rear, s.completed)) =
      some (30, 12) ∧
    emergencyRegistry.length = 12 ∧
    (∀ p ∈ emergencyRegistry, ValidJob p) ∧
    MAX_PROCESSES < 30 := by
  decide

/-! ### Claims C5/C6: there is no input validation at all -/

/-- Claim C5 (refuted, code bug): there is no `CapacityExceeded` check —
`run_scenario` invokes the schedulers on a registry of 21 valid jobs, one
more than the 20-slot `Process` arrays hold.  In the idealized unbounded-list
model the FCFS pass serves all 21 records, i.e. the C driver copies and
writes 21 `Process` records through its `MAX_PROCESSES = 20` element arrays
without raising any error. -/
theorem C5_capacity_overflow :
    MAX_PROCESSES < bigRegistry.length ∧
    (∀ p ∈ bigRegistry, ValidJob p) ∧
    (fcfsProcs bigRegistry).length = bigRegistry.length := by
  decide

/-- Claim C6 counterexample: a job with negative arrival time is not
rejected — the priority scheduler runs it to completion. -/
theorem C6_counterexample :
    negArrivalJob.arrival_time < 0 ∧
    (priority_scheduling 10 [negArrivalJob]).isSome = true := by
  decide
/-! ### A shape lemma for calculate_metrics -/

theorem calculate_metrics_eq (procs : List Job) (t : Int) (sr st sw : Int) (c : Nat)
    (tb mn mx : Int) (h : metricsScan procs 0 0 0 0 0 999 0 = (sr, st, sw, c, tb, mn, mx)) :
    calculate_metrics procs t =
      { avg_response_time := if 0 < c then (sr : ℚ) / (c : ℚ) else 0
        avg_turnaround_time := if 0 < c then (st : ℚ) / (c : ℚ) else 0
        avg_waiting_time := if 0 < c then (sw : ℚ) / (c : ℚ) else 0
        emergency_response_min := if mn = 999 then 0 else mn
        emergency_response_max := mx
        cpu_utilization := if 0 < t then (tb : ℚ) / (t : ℚ) * 100 else 0
        context_switches := 0
        throughput := if 0 < t then (c : ℚ) / (t : ℚ) else 0
        total_time := t } := by
  rw [calculate_metrics, h]

/-! ### Divergence of the priority loop on a zero-burst job -/

theorem zeroBurst_select_none (t : Int) : prioSelect [zeroBurstJob] t = none := by
  simp [prioSelect, prioSelectAux, List.enum, List.enumFrom, zeroBurstJob, mkJob]

theorem zeroBurst_loop_none (fuel : Nat) (s : PrioState)
    (h1 : s.procs = [zeroBurstJob]) (h2 : s.completed = 0) :
    prioLoop fuel s = none := by
  apply simLoop_none_of_inv prioStep prioCont
    (fun s => s.procs = [zeroBurstJob] ∧ s.completed = 0)
  · intro s hs
    simp [prioCont, hs.1, hs.2]
  · intro s hs
    simp [prioStep, hs.1, hs.2, zeroBurst_select_none]
  · exact ⟨h1, h2⟩

/-- Claim C6 amended: the code performs no input validation.  A job with
negative arrival time is simulated as-is (it behaves as if it had been
waiting since before time 0: here response 3, completion 2, turnaround 5,
waiting 3 — nothing is clamped), and on a job with zero burst time the
priority scheduling loop never terminates; no `InvalidJob` rejection exists
anywhere. -/
theorem C6_amended_no_validation :
    (prioProcs 10 [negArrivalJob]).map
        (fun p => (p.response_time, p.completion_time, p.turnaround_time, p.waiting_time)) =
      [(3, 2, 5, 3)] ∧
    prioDiverges [zeroBurstJob] := by
  constructor
  · decide
  · intro fuel
    unfold priority_scheduling
    rw [zeroBurst_loop_none fuel (prioInit [zeroBurstJob]) rfl rfl]
    rfl

/-! ### Claim C7: empty registry and division-by-zero guards -/

/-- Claim C7 counterexample: `calculate_metrics` called with
`total_time = 0` on a list with one completed job does not return zero
averages — `avg_response_time` is 4 here, so "whenever `total_time == 0`
the averages are 0" is false as a statement about the metrics calculator. -/
theorem C7_counterexample :
    (calculate_metrics [lateMetricsJob] 0).avg_response_time = 4 ∧
    (calculate_metrics [lateMetricsJob] 0).total_time = 0 ∧
    completedCount [lateMetricsJob] = 1 := by
  rw [calculate_metrics_eq [lateMetricsJob] 0 4 0 0 1 3 999 0 (by decide)]
  refine ⟨?_, rfl, by decide⟩
  norm_num

theorem metricsScan_of_none_completed (ps : List Job) (h : completedCount ps = 0) :
    ∀ sr st sw c tb mn mx, metricsScan ps sr st sw c tb mn mx = (sr, st, sw, c, tb, mn, mx) := by
  induction ps with
  | nil => intro sr st sw c tb mn mx; rfl
  | cons p ps ih =>
      intro sr st sw c tb mn mx
      rw [completedCount, List.countP_cons] at h
      have hp : ¬ 0 < p.completion_time := by
        intro hlt
        simp [hlt] at h
      have hps : completedCount ps = 0 := by
        rw [completedCount]
        omega
      rw [metricsScan, if_neg hp]
      exact ih hps sr st sw c tb mn mx

/-- Claim C7 amended: the empty registry makes all four algorithms return
at once with the all-zero metrics record; the averages are 0 whenever zero
jobs completed, and `cpu_utilization` and `throughput` are 0 whenever zero
jobs completed or `total_time = 0`.  (When `total_time = 0` but some job
has `completion_time > 0`, the averages are the true averages, not 0 —
that case is unreachable from actual runs.) -/
theorem C7_amended_zero_guards :
    (∀ fuel, priority_scheduling fuel [] = some ([], zeroMetrics, [])) ∧
    fcfs_scheduling [] = ([], zeroMetrics) ∧
    (∀ fuel, sjf_scheduling fuel [] = some ([], zeroMetrics)) ∧
    (∀ fuel, round_robin_scheduling fuel [] = some ([], zeroMetrics)) ∧
    (∀ procs t, completedCount procs = 0 →
      (calculate_metrics procs t).avg_response_time = 0 ∧
      (calculate_metrics procs t).avg_turnaround_time = 0 ∧
      (calculate_metrics procs t).avg_waiting_time = 0 ∧
      (calculate_metrics procs t).cpu_utilization = 0 ∧
      (calculate_metrics procs t).throughput = 0) ∧
    (∀ procs, (calculate_metrics procs 0).cpu_utilization = 0 ∧
      (calculate_metrics procs 0).throughput = 0) := by
  refine ⟨fun fuel => ?_, by decide, fun fuel => ?_, fun fuel => ?_, ?_, ?_⟩
  · unfold priority_scheduling prioLoop
    rw [simLoop_of_cont_false _ _ _ _ (by decide)]
    decide
  · unfold sjf_scheduling sjfLoop
    rw [simLoop_of_cont_false _ _ _ _ (by decide)]
    decide
  · unfold round_robin_scheduling rrLoop
    rw [simLoop_of_cont_false _ _ _ _ (by decide)]
    decide
  · intro procs t h
    rw [calculate_metrics_eq procs t 0 0 0 0 0 999 0
      (metricsScan_of_none_completed procs h 0 0 0 0 0 999 0)]
    refine ⟨rfl, rfl, rfl, ?_, ?_⟩
    · show (if 0 < t then ((0 : Int) : ℚ) / (t : ℚ) * 100 else 0) = 0
      split <;> simp
    · show (if 0 < t then ((0 : Nat) : ℚ) / (t : ℚ) else 0) = 0
      split <;> simp
  · intro procs
    rcases hsc : metricsScan procs 0 0 0 0 0 999 0 with ⟨sr, st, sw, c, tb, mn, mx⟩
    rw [calculate_metrics_eq procs 0 sr st sw c tb mn mx hsc]
    constructor <;> simp

/-- Witness for the guarded parts of the amended claim C7, at a concrete
uncompleted job and `total_time = 5`. -/
theorem C7_amended_zero_guards_witness :
    completedCount [mkJob 3 2 1 4] = 0 ∧
    ((calculate_metrics [mkJob 3 2 1 4] 5).avg_response_time = 0 ∧
     (calculate_metrics [mkJob 3 2 1 4] 5).avg_turnaround_time = 0 ∧
     (calculate_metrics [mkJob 3 2 1 4] 5).avg_waiting_time = 0 ∧
     (calculate_metrics [mkJob 3 2 1 4] 5).cpu_utilization = 0 ∧
     (calculate_metrics [mkJob 3 2 1 4] 5).throughput = 0) :=
  ⟨by decide, C7_amended_zero_guards.2.2.2.2.1 [mkJob 3 2 1 4] 5 (by decide)⟩

/-! ### Claim C4: the emergency response extrema -/

theorem foldl_min_le_init : ∀ (l : List Int) (a : Int), l.foldl min a ≤ a := by
  intro l
  induction l with
  | nil => intro a; exact le_refl a
  | cons x l ih =>
      intro a
      calc (x :: l).foldl min a = l.foldl min (min a x) := rfl
        _ ≤ min a x := ih (min a x)
        _ ≤ a := min_le_left a x

theorem foldl_min_le_mem : ∀ (l : List Int) (a x : Int), x ∈ l → l.foldl min a ≤ x := by
  intro l
  induction l with
  | nil => intro a x hx; cases hx
  | cons y l ih =>
      intro a x hx
      rcases List.mem_cons.mp hx with h | h
      · subst h
        calc (x :: l).foldl min a = l.foldl min (min a x) := rfl
          _ ≤ min a x := foldl_min_le_init l (min a x)
          _ ≤ x := min_le_right a x
      · exact ih (min a y) x h

theorem foldl_min_mem_or_eq : ∀ (l : List Int) (a : Int),
    l.foldl min a = a ∨ l.foldl min a ∈ l := by
  intro l
  induction l with
  | nil => intro a; exact Or.inl rfl
  | cons y l ih =>
      intro a
      rcases ih (min a y) with h | h
      · rcases min_choice a y with hm | hm
        · exact Or.inl (by rw [List.foldl_cons, h, hm])
        · refine Or.inr (List.mem_cons.mpr (Or.inl ?_))
          rw [List.foldl_cons, h, hm]
      · exact Or.inr (List.mem_cons.mpr (Or.inr h))

theorem foldl_min_eq_init_of_le : ∀ (l : List Int) (a : Int), (∀ x ∈ l, a ≤ x) →
    l.foldl min a = a := by
  intro l
  induction l with
  | nil => intro a _; rfl
  | cons y l ih =>
      intro a h
      have hy : min a y = a := min_eq_left (h y (List.mem_cons_self y l))
      rw [List.foldl_cons, hy]
      exact ih a (fun x hx => h x (List.mem_cons.mpr (Or.inr hx)))

theorem foldl_max_init_le : ∀ (l : List Int) (a : Int), a ≤ l.foldl max a := by
  intro l
  induction l with
  | nil => intro a; exact le_refl a
  | cons x l ih =>
      intro a
      calc a ≤ max a x := le_max_left a x
        _ ≤ l.foldl max (max a x) := ih (max a x)
        _ = (x :: l).foldl max a := rfl

theorem foldl_max_mem_le : ∀ (l : List Int) (a x : Int), x ∈ l → x ≤ l.foldl max a := by
  intro l
  induction l with
  | nil => intro a x hx; cases hx
  | cons y l ih =>
      intro a x hx
      rcases List.mem_cons.mp hx with h | h
      · subst h
        calc x ≤ max a x := le_max_right a x
          _ ≤ l.foldl max (max a x) := foldl_max_init_le l (max a x)
          _ = (x :: l).foldl max a := rfl
      · exact ih (max a y) x h

theorem foldl_max_mem_or_eq : ∀ (l : List Int) (a : Int),
    l.foldl max a = a ∨ l.foldl max a ∈ l := by
  intro l
  induction l with
  | nil => intro a; exact Or.inl rfl
  | cons y l ih =>
      intro a
      rcases ih (max a y) with h | h
      · rcases max_choice a y with hm | hm
        · exact Or.inl (by rw [List.foldl_cons, h, hm])
        · refine Or.inr (List.mem_cons.mpr (Or.inl ?_))
          rw [List.foldl_cons, h, hm]
      · exact Or.inr (List.mem_cons.mpr (Or.inr h))

/-- The `calculate_metrics` loop tracks exactly the fold of `min`/`max` over
the completed priority-1 response times. -/
theorem metricsScan_emergency : ∀ (ps : List Job) (sr st sw : Int) (c : Nat)
    (tb mn mx : Int),
    ∃ sr1 st1 sw1 c1 tb1,
      metricsScan ps sr st sw c tb mn mx =
        (sr1, st1, sw1, c1, tb1, (emergencyResponses ps).foldl min mn,
          (emergencyResponses ps).foldl max mx) := by
  intro ps
  induction ps with
  | nil => intro sr st sw c tb mn mx; exact ⟨sr, st, sw, c, tb, rfl⟩
  | cons p ps ih =>
      intro sr st sw c tb mn mx
      by_cases hc : 0 < p.completion_time
      · by_cases hp : p.priority = 1
        · have hde : emergencyResponses (p :: ps) = p.response_time :: emergencyResponses ps := by
            simp [emergencyResponses, List.filter_cons, hp, hc]
          have hmn : (if p.priority = 1 ∧ p.response_time < mn then p.response_time else mn) =
              min mn p.response_time := by
            rcases lt_or_le p.response_time mn with h | h
            · rw [if_pos ⟨hp, h⟩, min_eq_right (le_of_lt h)]
            · rw [if_neg (by rintro ⟨-, hlt⟩; omega), min_eq_left h]
          have hmx : (if p.priority = 1 ∧ mx < p.response_time then p.response_time else mx) =
              max mx p.response_time := by
            rcases lt_or_le mx p.response_time with h | h
            · rw [if_pos ⟨hp, h⟩, max_eq_right (le_of_lt h)]
            · rw [if_neg (by rintro ⟨-, hlt⟩; omega), max_eq_left h]
          rw [metricsScan, if_pos hc]
          simp only [hmn, hmx, hde, List.foldl_cons]
          exact ih _ _ _ _ _ _ _
        · have hde : emergencyResponses (p :: ps) = emergencyResponses ps := by
            simp [emergencyResponses, List.filter_cons, hp]
          have hmn : (if p.priority = 1 ∧ p.response_time < mn then p.response_time else mn) = mn := by
            rw [if_neg (by rintro ⟨h1, -⟩; exact hp h1)]
          have hmx : (if p.priority = 1 ∧ mx < p.response_time then p.response_time else mx) = mx := by
            rw [if_neg (by rintro ⟨h1, -⟩; exact hp h1)]
          rw [metricsScan, if_pos hc]
          simp only [hmn, hmx, hde]
          exact ih _ _ _ _ _ _ _
      · have hde : emergencyResponses (p :: ps) = emergencyResponses ps := by
          simp [emergencyResponses, List.filter_cons, hc]
        rw [metricsScan, if_neg hc]
        rw [hde]
        exact ih _ _ _ _ _ _ _

/-- The reported emergency minimum: the min-fold seeded 999, with 999 mapped
back to 0. -/
theorem calc_emergency_min (procs : List Job) (t : Int) :
    (calculate_metrics procs t).emergency_response_min =
      (if (emergencyResponses procs).foldl min 999 = 999 then 0
       else (emergencyResponses procs).foldl min 999) := by
  obtain ⟨sr1, st1, sw1, c1, tb1, h⟩ := metricsScan_emergency procs 0 0 0 0 0 999 0
  rw [calculate_metrics_eq procs t sr1 st1 sw1 c1 tb1 _ _ h]

/-- The reported emergency maximum: the max-fold seeded 0. -/
theorem calc_emergency_max (procs : List Job) (t : Int) :
    (calculate_metrics procs t).emergency_response_max =
      (emergencyResponses procs).foldl max 0 := by
  obtain ⟨sr1, st1, sw1, c1, tb1, h⟩ := metricsScan_emergency procs 0 0 0 0 0 999 0
  rw [calculate_metrics_eq procs t sr1 st1 sw1 c1 tb1 _ _ h]

/-- Claim C4 counterexample: one completed emergency job with response time
999 — the true minimum is 999, but the calculator reports
`emergency_response_min = 0` (the 999 sentinel is indistinguishable from a
real value), so the reported minimum is not the minimum response time of
the completed priority-1 jobs. -/
theorem C4_counterexample :
    (calculate_metrics [sentinelJob] 10).emergency_response_min = 0 ∧
    (calculate_metrics [sentinelJob] 10).emergency_response_max = 999 ∧
    emergencyResponses [sentinelJob] = [999] := by
  refine ⟨?_, ?_, by decide⟩
  · rw [calc_emergency_min]; decide
  · rw [calc_emergency_max]; decide

/-- Claim C4 amended: `emergency_response_max` is the maximum response time
over completed priority-1 jobs whenever that maximum is attained (it is an
element of their response list, or no such job pushes it above the 0 seed);
`emergency_response_min` is the true minimum exactly when some completed
priority-1 job has response time < 999, and is reported 0 both when no such
job exists and when every such response time is ≥ 999.  Both extrema are 0
when no completed priority-1 job exists, but they can also both be 0 when
one exists with response time 0. -/
theorem C4_amended_emergency_extrema (procs : List Job) (t : Int) :
    (emergencyResponses procs = [] →
      (calculate_metrics procs t).emergency_response_min = 0 ∧
      (calculate_metrics procs t).emergency_response_max = 0) ∧
    (0 ≤ (calculate_metrics procs t).emergency_response_max) ∧
    (∀ r ∈ emergencyResponses procs, r ≤ (calculate_metrics procs t).emergency_response_max) ∧
    ((calculate_metrics procs t).emergency_response_max ∈ emergencyResponses procs ∨
      (calculate_metrics procs t).emergency_response_max = 0) ∧
    ((∀ r ∈ emergencyResponses procs, 999 ≤ r) →
      (calculate_metrics procs t).emergency_response_min = 0) ∧
    ((∃ r ∈ emergencyResponses procs, r < 999) →
      (calculate_metrics procs t).emergency_response_min ∈ emergencyResponses procs ∧
      ∀ r ∈ emergencyResponses procs,
        (calculate_metrics procs t).emergency_response_min ≤ r) := by
  rw [calc_emergency_min, calc_emergency_max]
  refine ⟨?_, ?_, ?_, ?_, ?_, ?_⟩
  · intro h
    rw [h]
    exact ⟨rfl, rfl⟩
  · exact foldl_max_init_le (emergencyResponses procs) 0
  · intro r hr
    exact foldl_max_mem_le (emergencyResponses procs) 0 r hr
  · rcases foldl_max_mem_or_eq (emergencyResponses procs) 0 with h | h
    · exact Or.inr h
    · exact Or.inl h
  · intro h
    rw [foldl_min_eq_init_of_le (emergencyResponses procs) 999 h]
    rfl
  · rintro ⟨r, hr, hlt⟩
    have hle : (emergencyResponses procs).foldl min 999 ≤ r :=
      foldl_min_le_mem (emergencyResponses procs) 999 r hr
    have hne : (emergencyResponses procs).foldl min 999 ≠ 999 := by omega
    rw [if_neg hne]
    constructor
    · rcases foldl_min_mem_or_eq (emergencyResponses procs) 999 with h1 | h1
      · exact absurd h1 hne
      · exact h1
    · intro x hx
      exact foldl_min_le_mem (emergencyResponses procs) 999 x hx

/-- Witness for the amended claim C4 at a two-job emergency list. -/
theorem C4_amended_emergency_extrema_witness :
    (∃ r ∈ emergencyResponses [sentinelJob, lateEmergencyJob], r < 999) ∧
    ((calculate_metrics [sentinelJob, lateEmergencyJob] 10).emergency_response_min ∈
      emergencyResponses [sentinelJob, lateEmergencyJob] ∧
     ∀ r ∈ emergencyResponses [sentinelJob, lateEmergencyJob],
       (calculate_metrics [sentinelJob, lateEmergencyJob] 10).emergency_response_min ≤ r) :=
  ⟨by decide,
   (C4_amended_emergency_extrema [sentinelJob, lateEmergencyJob] 10).2.2.2.2.2 (by decide)⟩

/-! ### List bookkeeping lemmas -/

theorem mem_set_or {α : Type} : ∀ (l : List α) (i : Nat) (a x : α),
    x ∈ l.set i a → x = a ∨ x ∈ l := by
  intro l
  induction l with
  | nil => intro i a x hx; cases hx
  | cons y l ih =>
      intro i a x hx
      cases i with
      | zero =>
          rcases List.mem_cons.mp hx with h | h
          · exact Or.inl h
          · exact Or.inr (List.mem_cons.mpr (Or.inr h))
      | succ i =>
          rcases List.mem_cons.mp hx with h | h
          · exact Or.inr (List.mem_cons.mpr (Or.inl h))
          · rcases ih i a x h with h1 | h1
            · exact Or.inl h1
            · exact Or.inr (List.mem_cons.mpr (Or.inr h1))

theorem countP_set_add {α : Type} (f : α → Bool) : ∀ (l : List α) (i : Nat) (a b : α),
    l[i]? = some b → f b = false → f a = true →
    (l.set i a).countP f = l.countP f + 1 := by
  intro l
  induction l with
  | nil => intro i a b hb; simp at hb
  | cons y l ih =>
      intro i a b hb hfb hfa
      cases i with
      | zero =>
          simp only [List.getElem?_cons_zero, Option.some.injEq] at hb
          subst hb
          simp [List.set, List.countP_cons, hfb, hfa]
      | succ i =>
          simp only [List.getElem?_cons_succ] at hb
          simp only [List.set, List.countP_cons]
          rw [ih i a b hb hfb hfa]
          omega

theorem countP_set_eq {α : Type} (f : α → Bool) : ∀ (l : List α) (i : Nat) (a b : α),
    l[i]? = some b → f a = f b →
    (l.set i a).countP f = l.countP f := by
  intro l
  induction l with
  | nil => intro i a b hb; simp at hb
  | cons y l ih =>
      intro i a b hb hf
      cases i with
      | zero =>
          simp only [List.getElem?_cons_zero, Option.some.injEq] at hb
          subst hb
          simp [List.set, List.countP_cons, hf]
      | succ i =>
          simp only [List.getElem?_cons_succ] at hb
          simp only [List.set, List.countP_cons]
          rw [ih i a b hb hf]

theorem sum_map_set {α : Type} (f : α → Nat) : ∀ (l : List α) (i : Nat) (a b : α),
    l[i]? = some b →
    ((l.set i a).map f).sum + f b = (l.map f).sum + f a := by
  intro l
  induction l with
  | nil => intro i a b hb; simp at hb
  | cons y l ih =>
      intro i a b hb
      cases i with
      | zero =>
          simp only [List.getElem?_cons_zero, Option.some.injEq] at hb
          subst hb
          simp [List.set, List.map_cons, List.sum_cons]
          omega
      | succ i =>
          simp only [List.getElem?_cons_succ] at hb
          simp only [List.set, List.map_cons, List.sum_cons]
          have := ih i a b hb
          omega

theorem exists_getElem_of_countP_lt {α : Type} (f : α → Bool) : ∀ (l : List α),
    l.countP f < l.length → ∃ (i : Nat) (b : α), l[i]? = some b ∧ f b = false := by
  intro l
  induction l with
  | nil => intro h; simp at h
  | cons y l ih =>
      intro h
      cases hfy : f y with
      | false => exact ⟨0, y, List.getElem?_cons_zero, hfy⟩
      | true =>
          rw [List.countP_cons] at h
          simp only [hfy, if_pos, List.length_cons] at h
          obtain ⟨i, b, hb, hfb⟩ := ih (by omega)
          exact ⟨i + 1, b, by rw [List.getElem?_cons_succ]; exact hb, hfb⟩

theorem enumFrom_mem_iff {α : Type} : ∀ (l : List α) (k i : Nat) (a : α),
    (i, a) ∈ List.enumFrom k l ↔ (k ≤ i ∧ l[i - k]? = some a) := by
  intro l
  induction l with
  | nil => intro k i a; simp
  | cons y l ih =>
      intro k i a
      simp only [List.enumFrom, List.mem_cons, Prod.mk.injEq]
      constructor
      · rintro (⟨h1, h2⟩ | h)
        · subst h1; subst h2; simp
        · obtain ⟨h1, h2⟩ := (ih (k + 1) i a).mp h
          refine ⟨by omega, ?_⟩
          have hik : i - k = (i - (k + 1)) + 1 := by omega
          rw [hik, List.getElem?_cons_succ]
          exact h2
      · rintro ⟨h1, h2⟩
        rcases Nat.eq_or_lt_of_le h1 with h | h
        · subst h
          simp at h2
          exact Or.inl ⟨rfl, h2.symm⟩
        · refine Or.inr ((ih (k + 1) i a).mpr ⟨by omega, ?_⟩)
          have hik : i - k = (i - (k + 1)) + 1 := by omega
          rw [hik, List.getElem?_cons_succ] at h2
          exact h2

theorem zip_getElem?_iff {α β : Type} : ∀ (l1 : List α) (l2 : List β) (i : Nat) (a : α) (b : β),
    (l1.zip l2)[i]? = some (a, b) ↔ (l1[i]? = some a ∧ l2[i]? = some b) := by
  intro l1
  induction l1 with
  | nil => intro l2 i a b; simp
  | cons x l1 ih =>
      intro l2 i a b
      cases l2 with
      | nil => simp
      | cons y l2 =>
          cases i with
          | zero => simp [List.zip_cons_cons]
          | succ i => simpa [List.zip_cons_cons] using ih l2 i a b
/-! ### Soundness of the priority selection scan -/

theorem prioSelectAux_some (t : Int) : ∀ (l : List (Nat × Job)) (best : Option (Nat × Job))
    (bp : Int) (i : Nat) (p : Job), prioSelectAux t l best bp = some (i, p) →
    some (i, p) = best ∨ ((i, p) ∈ l ∧ p.arrival_time ≤ t ∧ 0 < p.remaining_time) := by
  intro l
  induction l with
  | nil => intro best bp i p h; exact Or.inl h.symm
  | cons e rest ih =>
      rcases e with ⟨j, q⟩
      intro best bp i p h
      rw [prioSelectAux] at h
      split at h
      case isTrue hcond =>
        rcases ih (some (j, q)) q.priority i p h with h1 | h1
        · have h2 : j = i ∧ q = p := by
            have := h1.symm
            simp only [Option.some.injEq, Prod.mk.injEq] at this
            exact this
          refine Or.inr ⟨?_, ?_, ?_⟩
          · rw [← h2.1, ← h2.2]; exact List.mem_cons_self _ _
          · rw [← h2.2]; exact hcond.1
          · rw [← h2.2]; exact hcond.2.1
        · exact Or.inr ⟨List.mem_cons.mpr (Or.inr h1.1), h1.2⟩
      case isFalse hcond =>
        rcases ih best bp i p h with h1 | h1
        · exact Or.inl h1
        · exact Or.inr ⟨List.mem_cons.mpr (Or.inr h1.1), h1.2⟩

theorem prioSelectAux_ne_none (t : Int) : ∀ (l : List (Nat × Job)) (best : Option (Nat × Job))
    (bp : Int), best ≠ none → prioSelectAux t l best bp ≠ none := by
  intro l
  induction l with
  | nil => intro best bp h; exact h
  | cons e rest ih =>
      rcases e with ⟨j, q⟩
      intro best bp h
      rw [prioSelectAux]
      split
      · exact ih (some (j, q)) q.priority (by simp)
      · exact ih best bp h

theorem prioSelectAux_none (t : Int) : ∀ (l : List (Nat × Job)) (best : Option (Nat × Job))
    (bp : Int), prioSelectAux t l best bp = none →
    ∀ ip ∈ l, ¬(ip.2.arrival_time ≤ t ∧ 0 < ip.2.remaining_time ∧ ip.2.priority < bp) := by
  intro l
  induction l with
  | nil => intro best bp _ ip hip; cases hip
  | cons e rest ih =>
      rcases e with ⟨j, q⟩
      intro best bp h ip hip
      rw [prioSelectAux] at h
      split at h
      case isTrue hcond =>
        exact absurd h (prioSelectAux_ne_none t rest (some (j, q)) q.priority (by simp))
      case isFalse hcond =>
        rcases List.mem_cons.mp hip with h1 | h1
        · subst h1; exact hcond
        · exact ih best bp h ip h1

/-- If the priority scan selects `(i, p)`, then `p` is the job at index `i`,
it has arrived and has work left. -/
theorem prioSelect_sound (ps : List Job) (t : Int) (i : Nat) (p : Job)
    (h : prioSelect ps t = some (i, p)) :
    ps[i]? = some p ∧ p.arrival_time ≤ t ∧ 0 < p.remaining_time := by
  rcases prioSelectAux_some t ps.enum none 999 i p h with h1 | h1
  · cases h1
  · refine ⟨?_, h1.2⟩
    have := (enumFrom_mem_iff ps 0 i p).mp h1.1
    simpa using this.2

/-- If the priority scan selects nothing, no job has arrived with work left
and priority below the 999 seed. -/
theorem prioSelect_none_sound (ps : List Job) (t : Int)
    (h : prioSelect ps t = none) :
    ∀ p ∈ ps, ¬(p.arrival_time ≤ t ∧ 0 < p.remaining_time ∧ p.priority < 999) := by
  intro p hp
  obtain ⟨i, hi, he⟩ := List.mem_iff_getElem.mp hp
  have hmem : (i, p) ∈ ps.enum := by
    refine (enumFrom_mem_iff ps 0 i p).mpr ⟨Nat.zero_le i, ?_⟩
    rw [Nat.sub_zero, List.getElem?_eq_getElem hi]
    exact congrArg some he
  exact prioSelectAux_none t ps.enum none 999 h (i, p) hmem

/-! ### Soundness of the SJF selection scan -/

theorem sjfSelectAux_ne_none (t : Int) : ∀ (l : List (Nat × Job × Bool))
    (best : Option (Nat × Job)) (sh : Int), best ≠ none → sjfSelectAux t l best sh ≠ none := by
  intro l
  induction l with
  | nil => intro best sh h; exact h
  | cons e rest ih =>
      rcases e with ⟨j, q, b⟩
      intro best sh h
      rw [sjfSelectAux]
      split
      · exact ih (some (j, q)) q.burst_time (by simp)
      · exact ih best sh h

theorem sjfSelectAux_none (t : Int) : ∀ (l : List (Nat × Job × Bool))
    (best : Option (Nat × Job)) (sh : Int), sjfSelectAux t l best sh = none →
    ∀ e ∈ l, ¬(e.2.1.arrival_time ≤ t ∧ e.2.2 = false ∧ e.2.1.burst_time < sh) := by
  intro l
  induction l with
  | nil => intro best sh _ e he; cases he
  | cons x rest ih =>
      rcases x with ⟨j, q, b⟩
      intro best sh h e he
      rw [sjfSelectAux] at h
      split at h
      case isTrue hcond =>
        exact absurd h (sjfSelectAux_ne_none t rest (some (j, q)) q.burst_time (by simp))
      case isFalse hcond =>
        rcases List.mem_cons.mp he with h1 | h1
        · subst h1; exact hcond
        · exact ih best sh h e h1

/-- Full characterization of the SJF selection scan over an index-annotated
zip: the selected job is eligible, its burst is minimal among all eligible
jobs, and among eligible jobs of equal burst the one with the lowest index
wins. -/
theorem sjfSelectAux_spec (t : Int) :
    ∀ (zs : List (Job × Bool)) (k : Nat) (best : Option (Nat × Job)) (sh : Int),
      (∀ j q, best = some (j, q) → q.burst_time = sh ∧ j < k) →
      ∀ i p, sjfSelectAux t (List.enumFrom k zs) best sh = some (i, p) →
        (some (i, p) = best ∨
          ((i, (p, false)) ∈ List.enumFrom k zs ∧ p.arrival_time ≤ t ∧ p.burst_time < sh)) ∧
        p.burst_time ≤ sh ∧
        (∀ j q b, (j, (q, b)) ∈ List.enumFrom k zs → q.arrival_time ≤ t → b = false →
          p.burst_time ≤ q.burst_time ∧ (j < i → p.burst_time < q.burst_time)) := by
  intro zs
  induction zs with
  | nil =>
      intro k best sh hb i p h
      simp only [List.enumFrom] at h
      rw [sjfSelectAux] at h
      obtain ⟨h1, h2⟩ := hb i p h
      refine ⟨Or.inl h.symm, le_of_eq h1, ?_⟩
      intro j q b hjq
      simp [List.enumFrom] at hjq
  | cons x zs ih =>
      rcases x with ⟨q0, b0⟩
      intro k best sh hb i p h
      simp only [List.enumFrom] at h
      rw [sjfSelectAux] at h
      split at h
      case isTrue hcond =>
        have hb1 : ∀ j q, some (k, q0) = some (j, q) → q.burst_time = q0.burst_time ∧ j < k + 1 := by
          intro j q hjq
          simp only [Option.some.injEq, Prod.mk.injEq] at hjq
          exact ⟨by rw [← hjq.2], by omega⟩
        obtain ⟨hA, hB, hC⟩ := ih (k + 1) (some (k, q0)) q0.burst_time hb1 i p h
        have hsh : q0.burst_time < sh := hcond.2.2
        have hbase : p.burst_time ≤ q0.burst_time := hB
        refine ⟨?_, by omega, ?_⟩
        · rcases hA with h1 | h1
          · have h2 : i = k ∧ p = q0 := by
              have := h1
              simp only [Option.some.injEq, Prod.mk.injEq] at this
              exact this
            refine Or.inr ⟨?_, ?_, ?_⟩
            · rw [h2.1, h2.2]
              simp [List.enumFrom, hcond.2.1]
            · rw [h2.2]; exact hcond.1
            · rw [h2.2]; exact hsh
          · exact Or.inr ⟨List.mem_cons.mpr (Or.inr h1.1), h1.2.1, by omega⟩
        · intro j q b hjq harr hbf
          rcases List.mem_cons.mp hjq with h1 | h1
          · have h2 : j = k ∧ q = q0 := by
              simp only [Prod.mk.injEq] at h1
              exact ⟨h1.1, by rw [h1.2.1]⟩
            refine ⟨by rw [h2.2]; exact hbase, ?_⟩
            intro hji
            rw [h2.2]
            rcases hA with ha | ha
            · have : i = k := by
                simp only [Option.some.injEq, Prod.mk.injEq] at ha
                exact ha.1
              omega
            · have hik : k + 1 ≤ i := ((enumFrom_mem_iff zs (k + 1) i (p, false)).mp ha.1).1
              omega
          · exact hC j q b h1 harr hbf
      case isFalse hcond =>
        have hb1 : ∀ j q, best = some (j, q) → q.burst_time = sh ∧ j < k + 1 := by
          intro j q hjq
          obtain ⟨ha1, ha2⟩ := hb j q hjq
          exact ⟨ha1, by omega⟩
        obtain ⟨hA, hB, hC⟩ := ih (k + 1) best sh hb1 i p h
        refine ⟨?_, hB, ?_⟩
        · rcases hA with h1 | h1
          · exact Or.inl h1
          · exact Or.inr ⟨List.mem_cons.mpr (Or.inr h1.1), h1.2⟩
        · intro j q b hjq harr hbf
          rcases List.mem_cons.mp hjq with h1 | h1
          · have h2 : j = k ∧ q = q0 ∧ b = b0 := by
              simp only [Prod.mk.injEq] at h1
              exact ⟨h1.1, h1.2.1, h1.2.2⟩
            have hq0b : b0 = false := by rw [← h2.2.2]; exact hbf
            have hq0a : q0.arrival_time ≤ t := by rw [← h2.2.1]; exact harr
            have hshq : sh ≤ q0.burst_time := by
              by_contra hx
              exact hcond ⟨hq0a, hq0b, by omega⟩
            refine ⟨by rw [h2.2.1]; omega, ?_⟩
            intro hji
            rw [h2.2.1]
            rcases hA with ha | ha
            · obtain ⟨hbq, hik⟩ := hb i p ha.symm
              omega
            · have : p.burst_time < sh := ha.2.2
              omega
          · exact hC j q b h1 harr hbf

/-- Top-level SJF selection soundness: the selected job is the one at its
index, not yet completed, arrived, of burst below the 999999 seed, and of
minimal burst among all arrived uncompleted jobs with lowest-index
tie-breaking. -/
theorem sjfSelect_spec (ps : List Job) (fl : List Bool) (t : Int) (i : Nat) (p : Job)
    (h : sjfSelect ps fl t = some (i, p)) :
    ps[i]? = some p ∧ fl[i]? = some false ∧ p.arrival_time ≤ t ∧ p.burst_time < 999999 ∧
    (∀ (j : Nat) (q : Job), ps[j]? = some q → fl[j]? = some false → q.arrival_time ≤ t →
      p.burst_time ≤ q.burst_time ∧ (j < i → p.burst_time < q.burst_time)) := by
  have hb : ∀ j q, (none : Option (Nat × Job)) = some (j, q) →
      q.burst_time = 999999 ∧ j < 0 := by
    intro j q hjq; cases hjq
  obtain ⟨hA, hB, hC⟩ := sjfSelectAux_spec t (ps.zip fl) 0 none 999999 hb i p h
  rcases hA with h1 | h1
  · cases h1
  · obtain ⟨hmem, harr, hbst⟩ := h1
    have hz : (ps.zip fl)[i]? = some (p, false) := by
      have := (enumFrom_mem_iff (ps.zip fl) 0 i (p, false)).mp hmem
      simpa using this.2
    obtain ⟨hp, hf⟩ := (zip_getElem?_iff ps fl i p false).mp hz
    refine ⟨hp, hf, harr, hbst, ?_⟩
    intro j q hq hfj harr2
    have hzj : (ps.zip fl)[j]? = some (q, false) :=
      (zip_getElem?_iff ps fl j q false).mpr ⟨hq, hfj⟩
    have hmemj : (j, (q, false)) ∈ (ps.zip fl).enum :=
      (enumFrom_mem_iff (ps.zip fl) 0 j (q, false)).mpr ⟨Nat.zero_le j, by simpa using hzj⟩
    exact hC j q false hmemj harr2 rfl

/-- If the SJF scan selects nothing, no uncompleted job has arrived with
burst below the 999999 seed. -/
theorem sjfSelect_none_sound (ps : List Job) (fl : List Bool) (t : Int)
    (h : sjfSelect ps fl t = none) :
    ∀ (j : Nat) (q : Job), ps[j]? = some q → fl[j]? = some false →
      ¬(q.arrival_time ≤ t ∧ q.burst_time < 999999) := by
  intro j q hq hf hcon
  have hz : (ps.zip fl)[j]? = some (q, false) :=
    (zip_getElem?_iff ps fl j q false).mpr ⟨hq, hf⟩
  have hmem : (j, (q, false)) ∈ (ps.zip fl).enum :=
    (enumFrom_mem_iff (ps.zip fl) 0 j (q, false)).mpr ⟨Nat.zero_le j, by simpa using hz⟩
  exact sjfSelectAux_none t (ps.zip fl).enum none 999999 h (j, (q, false)) hmem
    ⟨hcon.1, rfl, hcon.2⟩

/-! ### Characterization of the round robin arrival scan -/

theorem rrScan_length (t : Int) (skip : Option Nat) : ∀ (ps : List Job) (bs : List Bool)
    (k : Nat), bs.length = ps.length → ((rrScan t skip k ps bs).1).length = ps.length := by
  intro ps
  induction ps with
  | nil =>
      intro bs k h
      rw [rrScan]
      exact h
  | cons p ps ih =>
      intro bs k h
      cases bs with
      | nil => simp at h
      | cons b bs =>
          simp only [List.length_cons] at h
          have hih := ih bs (k + 1) (by omega)
          simp only [rrScan]
          split <;> simp [hih]

theorem rrScan_flags (t : Int) (skip : Option Nat) : ∀ (ps : List Job) (bs : List Bool)
    (k j : Nat) (p : Job) (b : Bool), ps[j]? = some p → bs[j]? = some b →
    ((rrScan t skip k ps bs).1)[j]? =
      some (if p.arrival_time ≤ t ∧ 0 < p.remaining_time ∧ b = false ∧ skip ≠ some (k + j)
            then true else b) := by
  intro ps
  induction ps with
  | nil => intro bs k j p b hp; simp at hp
  | cons p0 ps ih =>
      intro bs k j p b hp hb
      cases bs with
      | nil => simp at hb
      | cons b0 bs =>
          simp only [rrScan]
          cases j with
          | zero =>
              simp only [List.getElem?_cons_zero, Option.some.injEq] at hp hb
              subst hp; subst hb
              simp only [Nat.add_zero]
              split
              case isTrue hc => simp
              case isFalse hc => simp
          | succ j =>
              simp only [List.getElem?_cons_succ] at hp hb
              have hrec := ih bs (k + 1) j p b hp hb
              have hkj : k + 1 + j = k + (j + 1) := by omega
              rw [hkj] at hrec
              split <;> simpa using hrec

theorem rrScan_news_mem (t : Int) (skip : Option Nat) : ∀ (ps : List Job) (bs : List Bool)
    (k : Nat), bs.length = ps.length → ∀ i : Nat,
    (i ∈ (rrScan t skip k ps bs).2 ↔
      (k ≤ i ∧ ∃ p b, ps[i - k]? = some p ∧ bs[i - k]? = some b ∧
        p.arrival_time ≤ t ∧ 0 < p.remaining_time ∧ b = false ∧ skip ≠ some i)) := by
  intro ps
  induction ps with
  | nil =>
      intro bs k h i
      rw [rrScan]
      simp
  | cons p0 ps ih =>
      intro bs k h i
      cases bs with
      | nil => simp at h
      | cons b0 bs =>
          simp only [List.length_cons] at h
          have hns := ih bs (k + 1) (by omega) i
          simp only [rrScan]
          split
          case isTrue hc =>
            simp only [List.mem_cons]
            constructor
            · rintro (h1 | h1)
              · subst h1
                refine ⟨le_refl i, p0, b0, by simp, by simp, hc.1, hc.2.1, hc.2.2.1, ?_⟩
                have := hc.2.2.2
                simpa using this
              · obtain ⟨h2, p, b, hp, hb2, hrest⟩ := hns.mp h1
                refine ⟨by omega, p, b, ?_, ?_, hrest⟩
                · have hik : i - k = (i - (k + 1)) + 1 := by omega
                  rw [hik, List.getElem?_cons_succ]; exact hp
                · have hik : i - k = (i - (k + 1)) + 1 := by omega
                  rw [hik, List.getElem?_cons_succ]; exact hb2
            · rintro ⟨h1, p, b, hp, hb2, hrest⟩
              rcases Nat.eq_or_lt_of_le h1 with he | hlt
              · exact Or.inl he.symm
              · refine Or.inr (hns.mpr ⟨by omega, p, b, ?_, ?_, hrest⟩)
                · have hik : i - k = (i - (k + 1)) + 1 := by omega
                  rw [hik, List.getElem?_cons_succ] at hp; exact hp
                · have hik : i - k = (i - (k + 1)) + 1 := by omega
                  rw [hik, List.getElem?_cons_succ] at hb2; exact hb2
          case isFalse hc =>
            constructor
            · intro h1
              obtain ⟨h2, p, b, hp, hb2, hrest⟩ := hns.mp h1
              refine ⟨by omega, p, b, ?_, ?_, hrest⟩
              · have hik : i - k = (i - (k + 1)) + 1 := by omega
                rw [hik, List.getElem?_cons_succ]; exact hp
              · have hik : i - k = (i - (k + 1)) + 1 := by omega
                rw [hik, List.getElem?_cons_succ]
                exact hb2
            · rintro ⟨h1, p, b, hp, hb2, hrest⟩
              rcases Nat.eq_or_lt_of_le h1 with he | hlt
              · exfalso
                subst he
                simp only [Nat.sub_self, List.getElem?_cons_zero, Option.some.injEq] at hp hb2
                subst hp; subst hb2
                refine hc ⟨hrest.1, hrest.2.1, hrest.2.2.1, ?_⟩
                have := hrest.2.2.2
                simpa using this
              · refine hns.mpr ⟨by omega, p, b, ?_, ?_, hrest⟩
                · have hik : i - k = (i - (k + 1)) + 1 := by omega
                  rw [hik, List.getElem?_cons_succ] at hp; exact hp
                · have hik : i - k = (i - (k + 1)) + 1 := by omega
                  rw [hik, List.getElem?_cons_succ] at hb2; exact hb2

theorem rrScan_news_sorted (t : Int) (skip : Option Nat) : ∀ (ps : List Job) (bs : List Bool)
    (k : Nat), List.Pairwise (· < ·) (rrScan t skip k ps bs).2 ∧
      ∀ i ∈ (rrScan t skip k ps bs).2, k ≤ i := by
  intro ps
  induction ps with
  | nil => intro bs k; rw [rrScan]; simp
  | cons p0 ps ih =>
      intro bs k
      cases bs with
      | nil => rw [rrScan]; simp
      | cons b0 bs =>
          have hih := ih bs (k + 1)
          simp only [rrScan]
          split
          · refine ⟨List.pairwise_cons.mpr ⟨?_, hih.1⟩, ?_⟩
            · intro i hi
              have := hih.2 i hi
              omega
            · intro i hi
              rcases List.mem_cons.mp hi with h | h
              · omega
              · have := hih.2 i h
                omega
          · refine ⟨hih.1, ?_⟩
            intro i hi
            have := hih.2 i hi
            omega

theorem rrInitScan_length : ∀ (ps : List Job) (k : Nat),
    ((rrInitScan k ps).1).length = ps.length := by
  intro ps
  induction ps with
  | nil => intro k; rw [rrInitScan]; rfl
  | cons p ps ih =>
      intro k
      have hih := ih (k + 1)
      simp only [rrInitScan]
      split <;> simp [hih]

theorem rrInitScan_flags : ∀ (ps : List Job) (k j : Nat) (p : Job), ps[j]? = some p →
    ((rrInitScan k ps).1)[j]? = some (if p.arrival_time = 0 then true else false) := by
  intro ps
  induction ps with
  | nil => intro k j p hp; simp at hp
  | cons p0 ps ih =>
      intro k j p hp
      simp only [rrInitScan]
      cases j with
      | zero =>
          simp only [List.getElem?_cons_zero, Option.some.injEq] at hp
          subst hp
          split
          case isTrue hc => simp
          case isFalse hc => simp
      | succ j =>
          simp only [List.getElem?_cons_succ] at hp
          have hrec := ih (k + 1) j p hp
          split <;> simpa using hrec

theorem rrInitScan_mem : ∀ (ps : List Job) (k : Nat) (i : Nat),
    (i ∈ (rrInitScan k ps).2 ↔
      (k ≤ i ∧ ∃ p, ps[i - k]? = some p ∧ p.arrival_time = 0)) := by
  intro ps
  induction ps with
  | nil => intro k i; rw [rrInitScan]; simp
  | cons p0 ps ih =>
      intro k i
      have hns := ih (k + 1) i
      simp only [rrInitScan]
      split
      case isTrue hc =>
        simp only [List.mem_cons]
        constructor
        · rintro (h1 | h1)
          · subst h1
            exact ⟨le_refl i, p0, by simp, hc⟩
          · obtain ⟨h2, p, hp, ha⟩ := hns.mp h1
            refine ⟨by omega, p, ?_, ha⟩
            have hik : i - k = (i - (k + 1)) + 1 := by omega
            rw [hik, List.getElem?_cons_succ]; exact hp
        · rintro ⟨h1, p, hp, ha⟩
          rcases Nat.eq_or_lt_of_le h1 with he | hlt
          · exact Or.inl he.symm
          · refine Or.inr (hns.mpr ⟨by omega, p, ?_, ha⟩)
            have hik : i - k = (i - (k + 1)) + 1 := by omega
            rw [hik, List.getElem?_cons_succ] at hp; exact hp
      case isFalse hc =>
        constructor
        · intro h1
          obtain ⟨h2, p, hp, ha⟩ := hns.mp h1
          refine ⟨by omega, p, ?_, ha⟩
          have hik : i - k = (i - (k + 1)) + 1 := by omega
          rw [hik, List.getElem?_cons_succ]; exact hp
        · rintro ⟨h1, p, hp, ha⟩
          rcases Nat.eq_or_lt_of_le h1 with he | hlt
          · exfalso
            subst he
            simp only [Nat.sub_self, List.getElem?_cons_zero, Option.some.injEq] at hp
            subst hp
            exact hc ha
          · refine hns.mpr ⟨by omega, p, ?_, ha⟩
            have hik : i - k = (i - (k + 1)) + 1 := by omega
            rw [hik, List.getElem?_cons_succ] at hp; exact hp

theorem rrInitScan_sorted : ∀ (ps : List Job) (k : Nat),
    List.Pairwise (· < ·) (rrInitScan k ps).2 ∧ ∀ i ∈ (rrInitScan k ps).2, k ≤ i := by
  intro ps
  induction ps with
  | nil => intro k; rw [rrInitScan]; simp
  | cons p0 ps ih =>
      intro k
      have hih := ih (k + 1)
      simp only [rrInitScan]
      split
      · refine ⟨List.pairwise_cons.mpr ⟨?_, hih.1⟩, ?_⟩
        · intro i hi
          have := hih.2 i hi
          omega
        · intro i hi
          rcases List.mem_cons.mp hi with h | h
          · omega
          · have := hih.2 i h
            omega
      · refine ⟨hih.1, ?_⟩
        intro i hi
        have := hih.2 i hi
        omega

theorem getElem?_some_lt {α : Type} (l : List α) (i : Nat) (a : α) (h : l[i]? = some a) :
    i < l.length := (List.getElem?_eq_some.mp h).1

/-- Claim C8: one busy round robin step, dispatching the job `p` at the head
of the ready queue.  The new queue is the old tail, then the indices of
exactly those jobs that are arrived by the post-execution clock, unfinished,
and not yet queued (the freshly arrived jobs), and then — after them — the
just-run job again iff its remaining time is still positive.  The clock
advances by `min(remaining, quantum)`.  If the job finished, its completion
fields are computed at the new clock and `completed` is incremented;
otherwise its record only loses `TIME_QUANTUM` remaining units. -/
theorem C8_rr_arrivals_before_requeue (s : RRState) (idx : Nat) (rest : List Nat) (p : Job)
    (hq : s.queue = idx :: rest) (hp : s.procs[idx]? = some p)
    (hrem : 0 < p.remaining_time) (hlen : s.inq.length = s.procs.length) :
    ∃ ns : List Nat,
      (rrStep s).queue =
        rest ++ ns ++ (if p.remaining_time ≤ TIME_QUANTUM then [] else [idx]) ∧
      (∀ i : Nat, i ∈ ns ↔ (i ≠ idx ∧ ∃ q b, s.procs[i]? = some q ∧ s.inq[i]? = some b ∧
        q.arrival_time ≤ s.time + (if TIME_QUANTUM < p.remaining_time then TIME_QUANTUM
          else p.remaining_time) ∧ 0 < q.remaining_time ∧ b = false)) ∧
      (rrStep s).time = s.time + (if TIME_QUANTUM < p.remaining_time then TIME_QUANTUM
        else p.remaining_time) ∧
      (p.remaining_time ≤ TIME_QUANTUM →
        (rrStep s).completed = s.completed + 1 ∧
        ∃ q2, (rrStep s).procs[idx]? = some q2 ∧ q2.remaining_time = 0 ∧
          q2.completion_time = s.time + p.remaining_time ∧
          q2.turnaround_time = s.time + p.remaining_time - p.arrival_time ∧
          q2.waiting_time = s.time + p.remaining_time - p.arrival_time - p.burst_time) ∧
      (TIME_QUANTUM < p.remaining_time →
        (rrStep s).completed = s.completed ∧
        ∃ q2, (rrStep s).procs[idx]? = some q2 ∧
          q2.remaining_time = p.remaining_time - TIME_QUANTUM ∧
          q2.completion_time = p.completion_time) := by
  have h4 : TIME_QUANTUM = 4 := rfl
  have hidx : idx < s.procs.length := getElem?_some_lt s.procs idx p hp
  by_cases hcase : TIME_QUANTUM < p.remaining_time
  · refine ⟨(rrScan (s.time + TIME_QUANTUM) (some idx) 0
      (s.procs.set idx { p with
        start_time := if p.start_time = -1 then s.time else p.start_time,
        response_time := if p.start_time = -1 then s.time - p.arrival_time else p.response_time,
        remaining_time := p.remaining_time - TIME_QUANTUM })
      (s.inq.set idx false)).2, ?_, ?_, ?_, ?_, ?_⟩
    · rw [if_neg (show ¬ p.remaining_time ≤ TIME_QUANTUM by omega)]
      simp only [rrStep, hq, hp]
      simp only [if_pos hcase]
      rw [if_neg (show ¬ (p.remaining_time - TIME_QUANTUM = 0) by omega)]
    · intro i
      rw [rrScan_news_mem (s.time + TIME_QUANTUM) (some idx) _ _ 0 (by simp [hlen]) i]
      simp only [if_pos hcase, Nat.sub_zero, Nat.zero_le, true_and]
      constructor
      · rintro ⟨q, b, hq1, hb1, harr, hrem1, hbf, hskip⟩
        have hne : i ≠ idx := fun h => hskip (by rw [h])
        rw [List.getElem?_set_ne (fun h => hne h.symm)] at hq1
        rw [List.getElem?_set_ne (fun h => hne h.symm)] at hb1
        exact ⟨hne, q, b, hq1, hb1, harr, hrem1, hbf⟩
      · rintro ⟨hne, q, b, hq1, hb1, harr, hrem1, hbf⟩
        refine ⟨q, b, ?_, ?_, harr, hrem1, hbf, ?_⟩
        · rw [List.getElem?_set_ne (fun h => hne h.symm)]; exact hq1
        · rw [List.getElem?_set_ne (fun h => hne h.symm)]; exact hb1
        · intro h
          exact hne (Option.some.inj h).symm
    · simp only [rrStep, hq, hp]
      simp only [if_pos hcase]
      rw [if_neg (show ¬ (p.remaining_time - TIME_QUANTUM = 0) by omega)]
    · intro h; omega
    · intro h
      have hprocs : (rrStep s).procs = s.procs.set idx { p with
          start_time := if p.start_time = -1 then s.time else p.start_time,
          response_time := if p.start_time = -1 then s.time - p.arrival_time else p.response_time,
          remaining_time := p.remaining_time - TIME_QUANTUM } := by
        simp only [rrStep, hq, hp]
        simp only [if_pos hcase]
        rw [if_neg (show ¬ (p.remaining_time - TIME_QUANTUM = 0) by omega)]
      have hcompleted : (rrStep s).completed = s.completed := by
        simp only [rrStep, hq, hp]
        simp only [if_pos hcase]
        rw [if_neg (show ¬ (p.remaining_time - TIME_QUANTUM = 0) by omega)]
      refine ⟨hcompleted, { p with
          start_time := if p.start_time = -1 then s.time else p.start_time,
          response_time := if p.start_time = -1 then s.time - p.arrival_time else p.response_time,
          remaining_time := p.remaining_time - TIME_QUANTUM }, ?_, rfl, rfl⟩
      rw [hprocs]
      simp [List.getElem?_set, hidx]
  · have hr0 : p.remaining_time - p.remaining_time = 0 := by omega
    refine ⟨(rrScan (s.time + p.remaining_time) (some idx) 0
      (s.procs.set idx { p with
        start_time := if p.start_time = -1 then s.time else p.start_time,
        response_time := if p.start_time = -1 then s.time - p.arrival_time else p.response_time,
        remaining_time := p.remaining_time - p.remaining_time })
      (s.inq.set idx false)).2, ?_, ?_, ?_, ?_, ?_⟩
    · rw [if_pos (show p.remaining_time ≤ TIME_QUANTUM by omega), List.append_nil]
      simp only [rrStep, hq, hp]
      simp only [if_neg hcase]
      rw [if_pos hr0]
    · intro i
      rw [rrScan_news_mem (s.time + p.remaining_time) (some idx) _ _ 0 (by simp [hlen]) i]
      simp only [if_neg hcase, Nat.sub_zero, Nat.zero_le, true_and]
      constructor
      · rintro ⟨q, b, hq1, hb1, harr, hrem1, hbf, hskip⟩
        have hne : i ≠ idx := fun h => hskip (by rw [h])
        rw [List.getElem?_set_ne (fun h => hne h.symm)] at hq1
        rw [List.getElem?_set_ne (fun h => hne h.symm)] at hb1
        exact ⟨hne, q, b, hq1, hb1, harr, hrem1, hbf⟩
      · rintro ⟨hne, q, b, hq1, hb1, harr, hrem1, hbf⟩
        refine ⟨q, b, ?_, ?_, harr, hrem1, hbf, ?_⟩
        · rw [List.getElem?_set_ne (fun h => hne h.symm)]; exact hq1
        · rw [List.getElem?_set_ne (fun h => hne h.symm)]; exact hb1
        · intro h
          exact hne (Option.some.inj h).symm
    · simp only [rrStep, hq, hp]
      simp only [if_neg hcase]
      rw [if_pos hr0]
    · intro h
      have hprocs : (rrStep s).procs = (s.procs.set idx { p with
          start_time := if p.start_time = -1 then s.time else p.start_time,
          response_time := if p.start_time = -1 then s.time - p.arrival_time else p.response_time,
          remaining_time := p.remaining_time - p.remaining_time }).set idx { p with
          start_time := if p.start_time = -1 then s.time else p.start_time,
          response_time := if p.start_time = -1 then s.time - p.arrival_time else p.response_time,
          remaining_time := p.remaining_time - p.remaining_time,
          completion_time := if p.remaining_time - p.remaining_time = 0
                             then s.time + p.remaining_time else p.completion_time,
          turnaround_time := if p.remaining_time - p.remaining_time = 0
                             then s.time + p.remaining_time - p.arrival_time else p.turnaround_time,
          waiting_time := if p.remaining_time - p.remaining_time = 0
                          then s.time + p.remaining_time - p.arrival_time - p.burst_time
                          else p.waiting_time } := by
        simp only [rrStep, hq, hp]
        simp only [if_neg hcase]
        rw [if_pos hr0]
      have hcompleted : (rrStep s).completed = s.completed + 1 := by
        simp only [rrStep, hq, hp]
        simp only [if_neg hcase]
        rw [if_pos hr0]
      refine ⟨hcompleted, { p with
          start_time := if p.start_time = -1 then s.time else p.start_time,
          response_time := if p.start_time = -1 then s.time - p.arrival_time else p.response_time,
          remaining_time := p.remaining_time - p.remaining_time,
          completion_time := if p.remaining_time - p.remaining_time = 0
                             then s.time + p.remaining_time else p.completion_time,
          turnaround_time := if p.remaining_time - p.remaining_time = 0
                             then s.time + p.remaining_time - p.arrival_time else p.turnaround_time,
          waiting_time := if p.remaining_time - p.remaining_time = 0
                          then s.time + p.remaining_time - p.arrival_time - p.burst_time
                          else p.waiting_time }, ?_, hr0, ?_, ?_, ?_⟩
      · rw [hprocs, List.set_set]
        simp [List.getElem?_set, hidx]
      · show (if p.remaining_time - p.remaining_time = 0
              then s.time + p.remaining_time else p.completion_time) = s.time + p.remaining_time
        rw [if_pos hr0]
      · show (if p.remaining_time - p.remaining_time = 0
              then s.time + p.remaining_time - p.arrival_time else p.turnaround_time) =
            s.time + p.remaining_time - p.arrival_time
        rw [if_pos hr0]
      · show (if p.remaining_time - p.remaining_time = 0
              then s.time + p.remaining_time - p.arrival_time - p.burst_time
              else p.waiting_time) = s.time + p.remaining_time - p.arrival_time - p.burst_time
        rw [if_pos hr0]
    · intro h; omega

/-- Witness for claim C8 at `rrTestState`. -/
theorem C8_rr_arrivals_before_requeue_witness :
    (rrTestState.queue = 0 :: [] ∧ rrTestState.procs[0]? = some (mkJob 0 2 0 6) ∧
      0 < (mkJob 0 2 0 6).remaining_time ∧
      rrTestState.inq.length = rrTestState.procs.length) ∧
    (∃ ns : List Nat,
      (rrStep rrTestState).queue =
        [] ++ ns ++ (if (mkJob 0 2 0 6).remaining_time ≤ TIME_QUANTUM then [] else [0]) ∧
      (∀ i : Nat, i ∈ ns ↔ (i ≠ 0 ∧ ∃ q b, rrTestState.procs[i]? = some q ∧
        rrTestState.inq[i]? = some b ∧
        q.arrival_time ≤ rrTestState.time +
          (if TIME_QUANTUM < (mkJob 0 2 0 6).remaining_time then TIME_QUANTUM
           else (mkJob 0 2 0 6).remaining_time) ∧
        0 < q.remaining_time ∧ b = false)) ∧
      (rrStep rrTestState).time = rrTestState.time +
        (if TIME_QUANTUM < (mkJob 0 2 0 6).remaining_time then TIME_QUANTUM
         else (mkJob 0 2 0 6).remaining_time) ∧
      ((mkJob 0 2 0 6).remaining_time ≤ TIME_QUANTUM →
        (rrStep rrTestState).completed = rrTestState.completed + 1 ∧
        ∃ q2, (rrStep rrTestState).procs[0]? = some q2 ∧ q2.remaining_time = 0 ∧
          q2.completion_time = rrTestState.time + (mkJob 0 2 0 6).remaining_time ∧
          q2.turnaround_time = rrTestState.time + (mkJob 0 2 0 6).remaining_time -
            (mkJob 0 2 0 6).arrival_time ∧
          q2.waiting_time = rrTestState.time + (mkJob 0 2 0 6).remaining_time -
            (mkJob 0 2 0 6).arrival_time - (mkJob 0 2 0 6).burst_time) ∧
      (TIME_QUANTUM < (mkJob 0 2 0 6).remaining_time →
        (rrStep rrTestState).completed = rrTestState.completed ∧
        ∃ q2, (rrStep rrTestState).procs[0]? = some q2 ∧
          q2.remaining_time = (mkJob 0 2 0 6).remaining_time - TIME_QUANTUM ∧
          q2.completion_time = (mkJob 0 2 0 6).completion_time)) :=
  ⟨⟨rfl, by decide, by decide, by decide⟩,
   C8_rr_arrivals_before_requeue rrTestState 0 [] (mkJob 0 2 0 6) rfl (by decide)
     (by decide) (by decide)⟩

/-- Claim C9: if the SJF scheduler selects `(i, p)` at a decision point, then
`p` is the job at index `i`, it is not yet completed and has arrived, its
original burst is minimal among all arrived uncompleted jobs (with strict
minimality over lower indices: lowest-index tie-break), and the step runs it
to completion without preemption, advancing the clock by its full burst. -/
theorem C9_sjf_minimal_dispatch (s : SjfState) (i : Nat) (p : Job)
    (hsel : sjfSelect s.procs s.flags s.time = some (i, p)) :
    s.procs[i]? = some p ∧
    s.flags[i]? = some false ∧
    p.arrival_time ≤ s.time ∧
    (∀ (j : Nat) (q : Job), s.procs[j]? = some q → s.flags[j]? = some false →
      q.arrival_time ≤ s.time →
      p.burst_time ≤ q.burst_time ∧ (j < i → p.burst_time < q.burst_time)) ∧
    sjfStep s = ⟨s.procs.set i (sjfDoneJob s.time p), s.flags.set i true,
      s.time + p.burst_time, s.completed + 1, s.ctx + 1⟩ := by
  obtain ⟨h1, h2, h3, _, h5⟩ := sjfSelect_spec s.procs s.flags s.time i p hsel
  refine ⟨h1, h2, h3, h5, ?_⟩
  simp only [sjfStep, hsel, sjfDoneJob]

/-- Witness for claim C9 at `sjfTestState`: the dispatched job is the
burst-2 one, and its burst is strictly below the burst of the eligible
lower-index job. -/
theorem C9_sjf_minimal_dispatch_witness :
    sjfSelect sjfTestState.procs sjfTestState.flags sjfTestState.time =
      some (1, mkJob 1 2 0 2) ∧
    sjfTestState.procs[1]? = some (mkJob 1 2 0 2) ∧
    ((mkJob 1 2 0 2).burst_time ≤ (mkJob 0 3 0 5).burst_time ∧
      (0 < 1 → (mkJob 1 2 0 2).burst_time < (mkJob 0 3 0 5).burst_time)) :=
  ⟨by decide,
   (C9_sjf_minimal_dispatch sjfTestState 1 (mkJob 1 2 0 2) (by decide)).1,
   (C9_sjf_minimal_dispatch sjfTestState 1 (mkJob 1 2 0 2) (by decide)).2.2.2.1 0
     (mkJob 0 3 0 5) (by decide) (by decide) (by decide)⟩

theorem JobInv_mono (t t' : Int) (p : Job) (h : JobInv t p) (hle : t ≤ t') :
    JobInv t' p := by
  unfold JobInv at h ⊢
  omega

theorem prioStep_idle (s : PrioState) (hsel : prioSelect s.procs s.time = none) :
    prioStep s = { s with time := s.time + 1 } := by
  simp only [prioStep, hsel]

theorem prioStep_proj (s : PrioState) (next : Nat) (p : Job)
    (hsel : prioSelect s.procs s.time = some (next, p)) :
    (prioStep s).time = s.time + 1 ∧
    (prioStep s).completed = (if p.remaining_time - 1 = 0 then s.completed + 1
      else s.completed) ∧
    ∃ st rt : Int, (prioStep s).procs = s.procs.set next (prioDoneJob s.time p rt st) := by
  refine ⟨?_, ?_, ?_⟩
  · simp only [prioStep, hsel]
  · simp only [prioStep, hsel]
  · refine ⟨if (decide (¬ s.isRunning = some next) = true) ∧ p.start_time = -1
        then s.time else p.start_time,
      if (decide (¬ s.isRunning = some next) = true) ∧ p.start_time = -1
        then s.time - p.arrival_time else p.response_time, ?_⟩
    simp only [prioStep, hsel, prioDoneJob]

theorem prioInv_init (ps : List Job) (h : ∀ p ∈ ps, ValidJob p ∧ PristineJob p) :
    PrioInv (prioInit ps) := by
  refine ⟨le_refl 0, ?_, ?_⟩
  · intro p hp
    obtain ⟨⟨hv1, hv2⟩, hp1, hp2⟩ := h p hp
    unfold JobInv
    omega
  · show (0 : Nat) = ps.countP remZero
    symm
    rw [List.countP_eq_zero]
    intro p hp
    obtain ⟨⟨hv1, hv2⟩, hp1, hp2⟩ := h p hp
    simp only [remZero, decide_eq_true_eq]
    omega

theorem prioStep_inv (s : PrioState) (h : PrioInv s) : PrioInv (prioStep s) := by
  obtain ⟨h0, hJ, hcnt⟩ := h
  rcases hsel : prioSelect s.procs s.time with _ | ⟨next, p⟩
  · rw [prioStep_idle s hsel]
    refine ⟨?_, ?_, ?_⟩
    · show 0 ≤ s.time + 1
      omega
    · show ∀ p ∈ s.procs, JobInv (s.time + 1) p
      intro q hq
      exact JobInv_mono s.time (s.time + 1) q (hJ q hq) (by omega)
    · show s.completed = s.procs.countP remZero
      exact hcnt
  · obtain ⟨hget, harr, hrem⟩ := prioSelect_sound s.procs s.time next p hsel
    obtain ⟨ht, hc, st, rt, hprocs⟩ := prioStep_proj s next p hsel
    have hjp := hJ p (List.getElem?_mem hget)
    refine ⟨?_, ?_, ?_⟩
    · rw [ht]; omega
    · intro q hq
      rw [hprocs] at hq
      rw [ht]
      rcases mem_set_or s.procs next (prioDoneJob s.time p rt st) q hq with h1 | h1
      · subst h1
        unfold JobInv at hjp ⊢
        simp only [prioDoneJob]
        split <;> omega
      · exact JobInv_mono s.time (s.time + 1) q (hJ q h1) (by omega)
    · rw [hc, hprocs]
      by_cases hr : p.remaining_time - 1 = 0
      · rw [if_pos hr]
        have hfb : remZero p = false := by
          simp only [remZero, decide_eq_false_iff_not]
          omega
        have hfa : remZero (prioDoneJob s.time p rt st) = true := by
          simp only [remZero, prioDoneJob, decide_eq_true_eq]
          exact hr
        rw [countP_set_add remZero s.procs next (prioDoneJob s.time p rt st) p hget hfb hfa]
        omega
      · rw [if_neg hr]
        have hfe : remZero (prioDoneJob s.time p rt st) = remZero p := by
          simp only [remZero, prioDoneJob, decide_eq_true_eq]
          simp only [decide_eq_decide]
          omega
        rw [countP_set_eq remZero s.procs next (prioDoneJob s.time p rt st) p hget hfe]
        exact hcnt

/-! ### Run invariants: SJF -/

theorem sjfStep_idle (s : SjfState) (hsel : sjfSelect s.procs s.flags s.time = none) :
    sjfStep s = { s with time := s.time + 1 } := by
  simp only [sjfStep, hsel]

theorem sjfStep_eq (s : SjfState) (i : Nat) (p : Job)
    (hsel : sjfSelect s.procs s.flags s.time = some (i, p)) :
    sjfStep s = ⟨s.procs.set i (sjfDoneJob s.time p), s.flags.set i true,
      s.time + p.burst_time, s.completed + 1, s.ctx + 1⟩ := by
  simp only [sjfStep, hsel, sjfDoneJob]

theorem sjfInv_init (ps : List Job) (h : ∀ p ∈ ps, ValidJob p ∧ PristineJob p) :
    SjfInv (sjfInit ps) := by
  refine ⟨le_refl 0, by simp [sjfInit], ?_, ?_⟩
  · show (0 : Nat) = (List.replicate ps.length false).countP (fun b => b)
    symm
    rw [List.countP_eq_zero]
    intro b hb
    rw [List.eq_of_mem_replicate hb]
    simp
  · intro j p b hp hb
    show _
    have hbf : b = false := by
      have : (List.replicate ps.length false)[j]? = some b := hb
      rw [List.getElem?_replicate] at this
      split at this
      · exact (Option.some.inj this).symm
      · cases this
    obtain ⟨⟨hv1, hv2⟩, hp1, hp2⟩ := h p (List.getElem?_mem hp)
    subst hbf
    refine ⟨⟨hv1, hv2⟩, fun _ => hp2, ?_⟩
    intro hcon
    cases hcon

theorem sjfStep_inv (s : SjfState) (h : SjfInv s) : SjfInv (sjfStep s) := by
  obtain ⟨h0, hlen, hcnt, hidxinv⟩ := h
  rcases hsel : sjfSelect s.procs s.flags s.time with _ | ⟨i, p⟩
  · rw [sjfStep_idle s hsel]
    refine ⟨?_, hlen, hcnt, hidxinv⟩
    show 0 ≤ s.time + 1
    omega
  · obtain ⟨hpi, hfi, harr, hbst, hmin⟩ := sjfSelect_spec s.procs s.flags s.time i p hsel
    rw [sjfStep_eq s i p hsel]
    have hvp := (hidxinv i p false hpi hfi).1
    have hiltp : i < s.procs.length := getElem?_some_lt s.procs i p hpi
    have hiltf : i < s.flags.length := getElem?_some_lt s.flags i false hfi
    refine ⟨?_, ?_, ?_, ?_⟩
    · show 0 ≤ s.time + p.burst_time
      omega
    · show (s.flags.set i true).length = (s.procs.set i (sjfDoneJob s.time p)).length
      simp [hlen]
    · show s.completed + 1 = (s.flags.set i true).countP (fun b => b)
      rw [countP_set_add (fun b => b) s.flags i true false hfi rfl rfl]
      omega
    · intro j q b hq hb
      by_cases hji : j = i
      · subst hji
        have hq2 : q = sjfDoneJob s.time p := by
          have hx := hq
          simp only [List.getElem?_set, if_pos hiltp] at hx
          simp at hx
          exact hx.symm
        have hb2 : b = true := by
          have hx := hb
          simp only [List.getElem?_set, if_pos hiltf] at hx
          simp at hx
          exact hx
        subst hq2; subst hb2
        refine ⟨?_, ?_, ?_⟩
        · simp only [sjfDoneJob]
          exact hvp
        · intro hcon; cases hcon
        · intro _
          refine ⟨?_, ?_, ?_, ?_⟩
          · show 0 < s.time + p.burst_time
            omega
          · rfl
          · rfl
          · show p.arrival_time + p.burst_time ≤ s.time + p.burst_time
            omega
      · rw [List.getElem?_set_ne (fun hx => hji hx.symm)] at hq
        rw [List.getElem?_set_ne (fun hx => hji hx.symm)] at hb
        exact hidxinv j q b hq hb

theorem rrStep_empty_eq (s : RRState) (hq : s.queue = []) :
    rrStep s = { s with
      time := s.time + 1,
      inq := (rrScan (s.time + 1) none 0 s.procs s.inq).1,
      queue := (rrScan (s.time + 1) none 0 s.procs s.inq).2,
      rear := s.rear + (rrScan (s.time + 1) none 0 s.procs s.inq).2.length } := by
  simp only [rrStep, hq]

theorem rrStep_busy_eq (s : RRState) (idx : Nat) (rest : List Nat) (p : Job)
    (hq : s.queue = idx :: rest) (hp : s.procs[idx]? = some p) :
    rrStep s =
      (if p.remaining_time - rrExec p = 0 then
        (⟨(s.procs.set idx (rrTouchJob s.time p)).set idx (rrFinJob s.time p),
          (rrScan (s.time + rrExec p) (some idx) 0 (s.procs.set idx (rrTouchJob s.time p))
            (s.inq.set idx false)).1,
          rest ++ (rrScan (s.time + rrExec p) (some idx) 0
            (s.procs.set idx (rrTouchJob s.time p)) (s.inq.set idx false)).2,
          s.rear + (rrScan (s.time + rrExec p) (some idx) 0
            (s.procs.set idx (rrTouchJob s.time p)) (s.inq.set idx false)).2.length,
          s.time + rrExec p, s.completed + 1, s.ctx + 1⟩ : RRState)
      else
        ⟨s.procs.set idx (rrTouchJob s.time p),
          (rrScan (s.time + rrExec p) (some idx) 0 (s.procs.set idx (rrTouchJob s.time p))
            (s.inq.set idx false)).1.set idx true,
          rest ++ (rrScan (s.time + rrExec p) (some idx) 0
            (s.procs.set idx (rrTouchJob s.time p)) (s.inq.set idx false)).2 ++ [idx],
          s.rear + (rrScan (s.time + rrExec p) (some idx) 0
            (s.procs.set idx (rrTouchJob s.time p)) (s.inq.set idx false)).2.length + 1,
          s.time + rrExec p, s.completed, s.ctx + 1⟩) := by
  simp only [rrStep, hq, hp, rrExec, rrTouchJob, rrFinJob]

theorem rrInv_init (ps : List Job) (h : ∀ p ∈ ps, ValidJob p ∧ PristineJob p) :
    RRInv (rrInit ps) := by
  have hinit : rrInit ps = ⟨ps, (rrInitScan 0 ps).1, (rrInitScan 0 ps).2,
      ((rrInitScan 0 ps).2).length, 0, 0, 0⟩ := by
    simp only [rrInit]
  rw [hinit]
  refine ⟨le_refl 0, ?_, ?_, ?_, ?_, ?_, ?_, ?_⟩
  · show ((rrInitScan 0 ps).1).length = ps.length
    exact rrInitScan_length ps 0
  · intro p hp
    obtain ⟨⟨hv1, hv2⟩, hp1, hp2⟩ := h p hp
    unfold JobInv
    omega
  · show (0 : Nat) = ps.countP remZero
    symm
    rw [List.countP_eq_zero]
    intro p hp
    obtain ⟨⟨hv1, hv2⟩, hp1, hp2⟩ := h p hp
    simp only [remZero, decide_eq_true_eq]
    omega
  · intro i b hb htrue
    subst htrue
    have hilt : i < ps.length := by
      have := getElem?_some_lt _ i true hb
      rw [rrInitScan_length ps 0] at this
      exact this
    have hpi : ps[i]? = some ps[i] := List.getElem?_eq_getElem hilt
    have hfl := rrInitScan_flags ps 0 i ps[i] hpi
    rw [hb] at hfl
    have harr : ps[i].arrival_time = 0 := by
      by_contra hx
      rw [if_neg hx] at hfl
      cases hfl
    show i ∈ (rrInitScan 0 ps).2
    rw [rrInitScan_mem ps 0 i]
    exact ⟨Nat.zero_le i, ps[i], by simpa using hpi, harr⟩
  · intro i hi
    rw [rrInitScan_mem ps 0 i] at hi
    obtain ⟨-, p, hp, harr⟩ := hi
    rw [Nat.sub_zero] at hp
    have := rrInitScan_flags ps 0 i p hp
    rw [if_pos harr] at this
    exact this
  · intro i p hi hp
    have hi2 := hi
    rw [rrInitScan_mem ps 0 i] at hi2
    obtain ⟨-, q, hq2, harr⟩ := hi2
    rw [Nat.sub_zero] at hq2
    have hpq : p = q := by
      rw [hp] at hq2
      exact Option.some.inj hq2
    subst hpq
    obtain ⟨⟨hv1, hv2⟩, hp1, hp2⟩ := h p (List.getElem?_mem hp)
    constructor
    · omega
    · show p.arrival_time ≤ 0
      omega
  · exact ((rrInitScan_sorted ps 0).1).imp (fun hab => Nat.ne_of_lt hab)

theorem rrStep_inv_empty (s : RRState) (h : RRInv s) (hqe : s.queue = []) :
    RRInv (rrStep s) := by
  obtain ⟨h0, hlen, hJ, hcnt, hq1, hq2, hq3, hnd⟩ := h
  rw [rrStep_empty_eq s hqe]
  refine ⟨?_, ?_, ?_, ?_, ?_, ?_, ?_, ?_⟩
  · show 0 ≤ s.time + 1
    omega
  · show ((rrScan (s.time + 1) none 0 s.procs s.inq).1).length = s.procs.length
    exact rrScan_length _ _ s.procs s.inq 0 hlen
  · intro p hp
    exact JobInv_mono s.time (s.time + 1) p (hJ p hp) (by omega)
  · show s.completed = s.procs.countP remZero
    exact hcnt
  · intro i b hb htrue
    subst htrue
    have hilt : i < s.procs.length := by
      have := getElem?_some_lt _ i true hb
      rw [rrScan_length _ _ s.procs s.inq 0 hlen] at this
      exact this
    have hiltq : i < s.inq.length := by omega
    have hpi : s.procs[i]? = some s.procs[i] := List.getElem?_eq_getElem hilt
    have hbi : s.inq[i]? = some s.inq[i] := List.getElem?_eq_getElem hiltq
    have hfl := rrScan_flags (s.time + 1) none s.procs s.inq 0 i s.procs[i] s.inq[i] hpi hbi
    rw [hb] at hfl
    show i ∈ (rrScan (s.time + 1) none 0 s.procs s.inq).2
    by_cases hcond : s.procs[i].arrival_time ≤ s.time + 1 ∧ 0 < s.procs[i].remaining_time ∧
        s.inq[i] = false ∧ (none : Option Nat) ≠ some (0 + i)
    · rw [rrScan_news_mem _ _ s.procs s.inq 0 hlen i]
      exact ⟨Nat.zero_le i, s.procs[i], s.inq[i], by simpa using hpi, by simpa using hbi,
        hcond.1, hcond.2.1, hcond.2.2.1, by simp⟩
    · rw [if_neg hcond] at hfl
      have hbtrue : s.inq[i] = true := (Option.some.inj hfl).symm
      have hmem := hq1 i s.inq[i] hbi hbtrue
      rw [hqe] at hmem
      cases hmem
  · intro i hi
    have hi2 := hi
    rw [rrScan_news_mem _ _ s.procs s.inq 0 hlen i] at hi2
    obtain ⟨-, p, b, hp, hb, harr, hrem1, hbf, -⟩ := hi2
    rw [Nat.sub_zero] at hp hb
    have hfl := rrScan_flags (s.time + 1) none s.procs s.inq 0 i p b hp hb
    rw [if_pos ⟨harr, hrem1, hbf, by simp⟩] at hfl
    exact hfl
  · intro i p hi hp
    rw [rrScan_news_mem _ _ s.procs s.inq 0 hlen i] at hi
    obtain ⟨-, q, b, hq9, hb, harr, hrem1, -, -⟩ := hi
    rw [Nat.sub_zero] at hq9 hb
    have hpq : p = q := by
      rw [hp] at hq9
      exact Option.some.inj hq9
    subst hpq
    exact ⟨hrem1, harr⟩
  · exact ((rrScan_news_sorted _ _ s.procs s.inq 0).1).imp (fun hab => Nat.ne_of_lt hab)

theorem rrTouchJob_fields (t : Int) (p : Job) :
    (rrTouchJob t p).remaining_time = p.remaining_time - rrExec p ∧
    (rrTouchJob t p).arrival_time = p.arrival_time ∧
    (rrTouchJob t p).burst_time = p.burst_time ∧
    (rrTouchJob t p).completion_time = p.completion_time ∧
    (rrTouchJob t p).turnaround_time = p.turnaround_time ∧
    (rrTouchJob t p).waiting_time = p.waiting_time :=
  ⟨rfl, rfl, rfl, rfl, rfl, rfl⟩

theorem rrFinJob_fields (t : Int) (p : Job) :
    (rrFinJob t p).remaining_time = p.remaining_time - rrExec p ∧
    (rrFinJob t p).arrival_time = p.arrival_time ∧
    (rrFinJob t p).burst_time = p.burst_time ∧
    (rrFinJob t p).completion_time = (if p.remaining_time - rrExec p = 0
      then t + rrExec p else p.completion_time) ∧
    (rrFinJob t p).turnaround_time = (if p.remaining_time - rrExec p = 0
      then t + rrExec p - p.arrival_time else p.turnaround_time) ∧
    (rrFinJob t p).waiting_time = (if p.remaining_time - rrExec p = 0
      then t + rrExec p - p.arrival_time - p.burst_time else p.waiting_time) :=
  ⟨rfl, rfl, rfl, rfl, rfl, rfl⟩

theorem rrExec_bounds (p : Job) (h : 0 < p.remaining_time) :
    0 < rrExec p ∧ rrExec p ≤ p.remaining_time := by
  have h4 : TIME_QUANTUM = 4 := rfl
  unfold rrExec
  split <;> omega

theorem rrTouchJob_JobInv (t1 t : Int) (p : Job) (hjp : JobInv t p)
    (hprem : 0 < p.remaining_time) (hparr : p.arrival_time ≤ t)
    (ht1 : t1 = t + rrExec p) (hr : ¬ p.remaining_time - rrExec p = 0) :
    JobInv t1 (rrTouchJob t p) := by
  obtain ⟨he1, he2⟩ := rrExec_bounds p hprem
  unfold JobInv at hjp ⊢
  rw [(rrTouchJob_fields t p).1, (rrTouchJob_fields t p).2.1,
    (rrTouchJob_fields t p).2.2.1, (rrTouchJob_fields t p).2.2.2.1,
    (rrTouchJob_fields t p).2.2.2.2.1, (rrTouchJob_fields t p).2.2.2.2.2]
  omega

theorem rrFinJob_JobInv (t1 t : Int) (p : Job) (hjp : JobInv t p)
    (hprem : 0 < p.remaining_time) (hparr : p.arrival_time ≤ t) (h0 : 0 ≤ t)
    (ht1 : t1 = t + rrExec p) (hr : p.remaining_time - rrExec p = 0) :
    JobInv t1 (rrFinJob t p) := by
  obtain ⟨he1, he2⟩ := rrExec_bounds p hprem
  unfold JobInv at hjp ⊢
  rw [(rrFinJob_fields t p).1, (rrFinJob_fields t p).2.1,
    (rrFinJob_fields t p).2.2.1, (rrFinJob_fields t p).2.2.2.1,
    (rrFinJob_fields t p).2.2.2.2.1, (rrFinJob_fields t p).2.2.2.2.2,
    if_pos hr, if_pos hr, if_pos hr]
  omega

theorem rrStep_inv_busy (s : RRState) (h : RRInv s) (idx : Nat) (rest : List Nat)
    (hqe : s.queue = idx :: rest) : RRInv (rrStep s) := by
  obtain ⟨h0, hlen, hJ, hcnt, hq1, hq2, hq3, hnd⟩ := h
  rw [hqe] at hnd
  obtain ⟨hnidx, hndrest⟩ := List.nodup_cons.mp hnd
  have hinqidx : s.inq[idx]? = some true :=
    hq2 idx (by rw [hqe]; exact List.mem_cons_self idx rest)
  have hidxlt : idx < s.procs.length := by
    have := getElem?_some_lt s.inq idx true hinqidx
    omega
  obtain ⟨p, hp⟩ : ∃ q, s.procs[idx]? = some q :=
    ⟨s.procs[idx], List.getElem?_eq_getElem hidxlt⟩
  obtain ⟨hprem, hparr⟩ :=
    hq3 idx p (by rw [hqe]; exact List.mem_cons_self idx rest) hp
  have hjp := hJ p (List.getElem?_mem hp)
  obtain ⟨he1, he2⟩ := rrExec_bounds p hprem
  rw [rrStep_busy_eq s idx rest p hqe hp]
  set procs1 := s.procs.set idx (rrTouchJob s.time p) with hprocs1
  set inq1 := s.inq.set idx false with hinq1
  set t1 := s.time + rrExec p with ht1
  set sc := rrScan t1 (some idx) 0 procs1 inq1 with hsc
  have hlenp1 : procs1.length = s.procs.length := by
    rw [hprocs1]; simp
  have hleni1 : inq1.length = procs1.length := by
    rw [hinq1, hprocs1]; simp [hlen]
  have hscl : sc.1.length = procs1.length := by
    rw [hsc]; exact rrScan_length t1 (some idx) procs1 inq1 0 hleni1
  have hle : s.time ≤ t1 := by rw [ht1]; omega
  have hp1ne : ∀ i : Nat, i ≠ idx → procs1[i]? = s.procs[i]? := by
    intro i hi
    rw [hprocs1]
    simp [List.getElem?_set, (Ne.symm hi : idx ≠ i)]
  have hi1ne : ∀ i : Nat, i ≠ idx → inq1[i]? = s.inq[i]? := by
    intro i hi
    rw [hinq1]
    simp [List.getElem?_set, (Ne.symm hi : idx ≠ i)]
  have hp1self : procs1[idx]? = some (rrTouchJob s.time p) := by
    rw [hprocs1]
    simp [List.getElem?_set, hidxlt]
  have hi1self : inq1[idx]? = some false := by
    rw [hinq1]
    simp [List.getElem?_set, show idx < s.inq.length by omega]
  have hmem : ∀ i : Nat, i ∈ sc.2 ↔ (∃ q b, procs1[i]? = some q ∧ inq1[i]? = some b ∧
      q.arrival_time ≤ t1 ∧ 0 < q.remaining_time ∧ b = false ∧ idx ≠ i) := by
    intro i
    rw [hsc, rrScan_news_mem t1 (some idx) procs1 inq1 0 hleni1 i]
    constructor
    · rintro ⟨-, q, b, hq9, hb9, h1, h2, h3, h4⟩
      rw [Nat.sub_zero] at hq9 hb9
      exact ⟨q, b, hq9, hb9, h1, h2, h3, fun he => h4 (by rw [he])⟩
    · rintro ⟨q, b, hq9, hb9, h1, h2, h3, h4⟩
      refine ⟨Nat.zero_le i, q, b, ?_, ?_, h1, h2, h3, fun he => h4 (Option.some.inj he)⟩
      · rw [Nat.sub_zero]; exact hq9
      · rw [Nat.sub_zero]; exact hb9
  have hscne : ∀ i ∈ sc.2, i ≠ idx := by
    intro i hi
    obtain ⟨q, b, -, -, -, -, -, h4⟩ := (hmem i).mp hi
    exact fun he => h4 he.symm
  have hrestne : ∀ i ∈ rest, i ≠ idx := by
    intro i hi he
    subst he
    exact hnidx hi
  have hsc1true : ∀ i : Nat, i ≠ idx → sc.1[i]? = some true → i ∈ rest ∨ i ∈ sc.2 := by
    intro i hi hb
    have hilt : i < s.procs.length := by
      have := getElem?_some_lt sc.1 i true hb
      omega
    have hbilt : i < s.inq.length := by omega
    have hpi : procs1[i]? = some s.procs[i] := by
      rw [hp1ne i hi]; exact List.getElem?_eq_getElem hilt
    have hbi : inq1[i]? = some s.inq[i] := by
      rw [hi1ne i hi]; exact List.getElem?_eq_getElem hbilt
    have hfli := rrScan_flags t1 (some idx) procs1 inq1 0 i s.procs[i] s.inq[i] hpi hbi
    rw [← hsc] at hfli
    rw [hfli] at hb
    by_cases hcond : s.procs[i].arrival_time ≤ t1 ∧ 0 < s.procs[i].remaining_time ∧
        s.inq[i] = false ∧ (some idx : Option Nat) ≠ some (0 + i)
    · right
      rw [hmem i]
      exact ⟨s.procs[i], s.inq[i], hpi, hbi, hcond.1, hcond.2.1, hcond.2.2.1,
        fun he => hcond.2.2.2 (by rw [he, Nat.zero_add])⟩
    · rw [if_neg hcond] at hb
      have hbt : s.inq[i] = true := Option.some.inj hb
      have hbi0 : s.inq[i]? = some true := by
        rw [List.getElem?_eq_getElem hbilt, hbt]
      have hmemq := hq1 i true hbi0 rfl
      rw [hqe] at hmemq
      rcases List.mem_cons.mp hmemq with he | hm
      · exact absurd he hi
      · exact Or.inl hm
  have hscrest : ∀ i ∈ rest, sc.1[i]? = some true := by
    intro i hi
    have hine := hrestne i hi
    have hbi0 : s.inq[i]? = some true :=
      hq2 i (by rw [hqe]; exact List.mem_cons_of_mem idx hi)
    have hbilt : i < s.inq.length := getElem?_some_lt s.inq i true hbi0
    have hilt : i < s.procs.length := by omega
    have hpi : procs1[i]? = some s.procs[i] := by
      rw [hp1ne i hine]; exact List.getElem?_eq_getElem hilt
    have hbi : inq1[i]? = some true := by rw [hi1ne i hine]; exact hbi0
    have hfli := rrScan_flags t1 (some idx) procs1 inq1 0 i s.procs[i] true hpi hbi
    rw [← hsc] at hfli
    rw [ite_self] at hfli
    exact hfli
  have hsc2mem : ∀ i ∈ sc.2, sc.1[i]? = some true := by
    intro i hi
    obtain ⟨q, b, hqi, hbi, h1, h2, h3, h4⟩ := (hmem i).mp hi
    subst h3
    have hfli := rrScan_flags t1 (some idx) procs1 inq1 0 i q false hqi hbi
    rw [← hsc] at hfli
    rw [if_pos ⟨h1, h2, rfl,
      fun he => h4 ((Option.some.inj he).trans (Nat.zero_add i))⟩] at hfli
    exact hfli
  have hq3new : ∀ (i : Nat) (q : Job), i ≠ idx → (i ∈ rest ∨ i ∈ sc.2) →
      s.procs[i]? = some q → 0 < q.remaining_time ∧ q.arrival_time ≤ t1 := by
    intro i q hine hi hq9
    rcases hi with hir | his
    · have hold := hq3 i q (by rw [hqe]; exact List.mem_cons_of_mem idx hir) hq9
      exact ⟨hold.1, by omega⟩
    · obtain ⟨q', b, hqi, hbi, h1, h2, h3, h4⟩ := (hmem i).mp his
      rw [hp1ne i hine, hq9] at hqi
      have hqq : q = q' := Option.some.inj hqi
      subst hqq
      exact ⟨h2, h1⟩
  have hscnd : sc.2.Nodup := by
    have hs := (rrScan_news_sorted t1 (some idx) procs1 inq1 0).1
    rw [← hsc] at hs
    exact hs.imp (fun hab => Nat.ne_of_lt hab)
  have hdisj : List.Disjoint rest sc.2 := by
    intro a ha1 ha2
    have hane := hrestne a ha1
    have hb1 : inq1[a]? = some true := by
      rw [hi1ne a hane]
      exact hq2 a (by rw [hqe]; exact List.mem_cons_of_mem idx ha1)
    obtain ⟨q, b, -, hbi, -, -, h3, -⟩ := (hmem a).mp ha2
    subst h3
    rw [hb1] at hbi
    simp at hbi
  have hnd2 : (rest ++ sc.2).Nodup := List.Nodup.append hndrest hscnd hdisj
  have hfp : remZero p = false := by
    simp only [remZero, decide_eq_false_iff_not]
    omega
  by_cases hr : p.remaining_time - rrExec p = 0
  · rw [if_pos hr]
    have hcoll : procs1.set idx (rrFinJob s.time p) = s.procs.set idx (rrFinJob s.time p) := by
      rw [hprocs1, List.set_set]
    have hffin : remZero (rrFinJob s.time p) = true := by
      simp only [remZero, (rrFinJob_fields s.time p).1, hr]
      decide
    have hp2ne : ∀ i : Nat, i ≠ idx →
        (procs1.set idx (rrFinJob s.time p))[i]? = s.procs[i]? := by
      intro i hi
      rw [hcoll]
      simp [List.getElem?_set, (Ne.symm hi : idx ≠ i)]
    refine ⟨?_, ?_, ?_, ?_, ?_, ?_, ?_, ?_⟩
    · show 0 ≤ t1
      rw [ht1]; omega
    · show sc.1.length = (procs1.set idx (rrFinJob s.time p)).length
      rw [List.length_set]
      exact hscl
    · intro q hq
      have hq' : q ∈ procs1.set idx (rrFinJob s.time p) := hq
      rw [hcoll] at hq'
      rcases mem_set_or s.procs idx (rrFinJob s.time p) q hq' with he | hm
      · subst he
        exact rrFinJob_JobInv t1 s.time p hjp hprem hparr h0 ht1 hr
      · exact JobInv_mono s.time t1 q (hJ q hm) hle
    · show s.completed + 1 = (procs1.set idx (rrFinJob s.time p)).countP remZero
      rw [hcoll, countP_set_add remZero s.procs idx (rrFinJob s.time p) p hp hfp hffin, hcnt]
    · intro i b hb htrue
      subst htrue
      have hb' : sc.1[i]? = some true := hb
      show i ∈ rest ++ sc.2
      by_cases hi : i = idx
      · have hfli := rrScan_flags t1 (some idx) procs1 inq1 0 idx (rrTouchJob s.time p) false
          hp1self hi1self
        rw [← hsc] at hfli
        have hnc : ¬((rrTouchJob s.time p).arrival_time ≤ t1 ∧
            0 < (rrTouchJob s.time p).remaining_time ∧ false = false ∧
            (some idx : Option Nat) ≠ some (0 + idx)) :=
          fun hcond => hcond.2.2.2 (by rw [Nat.zero_add])
        rw [if_neg hnc] at hfli
        rw [hi] at hb'
        rw [hb'] at hfli
        simp at hfli
      · rcases hsc1true i hi hb' with h1 | h1
        · exact List.mem_append.mpr (Or.inl h1)
        · exact List.mem_append.mpr (Or.inr h1)
    · intro i hi
      have hi' : i ∈ rest ++ sc.2 := hi
      show sc.1[i]? = some true
      rcases List.mem_append.mp hi' with h1 | h1
      · exact hscrest i h1
      · exact hsc2mem i h1
    · intro i q hi hq9
      have hi' : i ∈ rest ++ sc.2 := hi
      have hq' : (procs1.set idx (rrFinJob s.time p))[i]? = some q := hq9
      rcases List.mem_append.mp hi' with h1 | h1
      · have hine := hrestne i h1
        rw [hp2ne i hine] at hq'
        exact hq3new i q hine (Or.inl h1) hq'
      · have hine := hscne i h1
        rw [hp2ne i hine] at hq'
        exact hq3new i q hine (Or.inr h1) hq'
    · exact hnd2
  · rw [if_neg hr]
    have hftouch : remZero (rrTouchJob s.time p) = false := by
      simp only [remZero, (rrTouchJob_fields s.time p).1, decide_eq_false_iff_not]
      exact hr
    refine ⟨?_, ?_, ?_, ?_, ?_, ?_, ?_, ?_⟩
    · show 0 ≤ t1
      rw [ht1]; omega
    · show (sc.1.set idx true).length = procs1.length
      rw [List.length_set]
      exact hscl
    · intro q hq
      have hq' : q ∈ procs1 := hq
      rw [hprocs1] at hq'
      rcases mem_set_or s.procs idx (rrTouchJob s.time p) q hq' with he | hm
      · subst he
        exact rrTouchJob_JobInv t1 s.time p hjp hprem hparr ht1 hr
      · exact JobInv_mono s.time t1 q (hJ q hm) hle
    · show s.completed = procs1.countP remZero
      rw [hprocs1,
        countP_set_eq remZero s.procs idx (rrTouchJob s.time p) p hp (by rw [hftouch, hfp]),
        hcnt]
    · intro i b hb htrue
      subst htrue
      have hb' : (sc.1.set idx true)[i]? = some true := hb
      show i ∈ rest ++ sc.2 ++ [idx]
      by_cases hi : i = idx
      · subst hi
        exact List.mem_append.mpr (Or.inr (List.mem_singleton.mpr rfl))
      · have hset : (sc.1.set idx true)[i]? = sc.1[i]? := by
          simp [List.getElem?_set, (Ne.symm hi : idx ≠ i)]
        rw [hset] at hb'
        rcases hsc1true i hi hb' with h1 | h1
        · exact List.mem_append.mpr (Or.inl (List.mem_append.mpr (Or.inl h1)))
        · exact List.mem_append.mpr (Or.inl (List.mem_append.mpr (Or.inr h1)))
    · intro i hi
      have hi' : i ∈ rest ++ sc.2 ++ [idx] := hi
      show (sc.1.set idx true)[i]? = some true
      rcases List.mem_append.mp hi' with h1 | h1
      · have hine : i ≠ idx := by
          rcases List.mem_append.mp h1 with h2 | h2
          · exact hrestne i h2
          · exact hscne i h2
        have hset : (sc.1.set idx true)[i]? = sc.1[i]? := by
          simp [List.getElem?_set, (Ne.symm hine : idx ≠ i)]
        rw [hset]
        rcases List.mem_append.mp h1 with h2 | h2
        · exact hscrest i h2
        · exact hsc2mem i h2
      · have he : i = idx := List.mem_singleton.mp h1
        subst he
        simp [List.getElem?_set, show i < sc.1.length by omega]
    · intro i q hi hq9
      have hi' : i ∈ rest ++ sc.2 ++ [idx] := hi
      have hq' : procs1[i]? = some q := hq9
      rcases List.mem_append.mp hi' with h1 | h1
      · rcases List.mem_append.mp h1 with h2 | h2
        · have hine := hrestne i h2
          rw [hp1ne i hine] at hq'
          exact hq3new i q hine (Or.inl h2) hq'
        · have hine := hscne i h2
          rw [hp1ne i hine] at hq'
          exact hq3new i q hine (Or.inr h2) hq'
      · have he : i = idx := List.mem_singleton.mp h1
        subst he
        rw [hp1self] at hq'
        have hqq : q = rrTouchJob s.time p := (Option.some.inj hq').symm
        subst hqq
        constructor
        · rw [(rrTouchJob_fields s.time p).1]
          omega
        · show (rrTouchJob s.time p).arrival_time ≤ t1
          rw [(rrTouchJob_fields s.time p).2.1, ht1]
          omega
    · have hdisj2 : List.Disjoint (rest ++ sc.2) [idx] := by
        intro a ha1 ha2
        have he : a = idx := List.mem_singleton.mp ha2
        subst he
        rcases List.mem_append.mp ha1 with h1 | h1
        · exact hnidx h1
        · exact hscne _ h1 rfl
      exact List.Nodup.append hnd2 (List.nodup_singleton idx) hdisj2

theorem rrStep_inv (s : RRState) (h : RRInv s) : RRInv (rrStep s) := by
  cases hq : s.queue with
  | nil => exact rrStep_inv_empty s h hq
  | cons idx rest => exact rrStep_inv_busy s h idx rest hq

theorem fcfsGo_consistent : ∀ (ps : List Job) (t : Int), ∀ q ∈ (fcfsGo t ps).1,
    JobConsistent q := by
  intro ps
  induction ps with
  | nil =>
      intro t q hq
      simp [fcfsGo] at hq
  | cons p ps ih =>
      intro t q hq
      simp only [fcfsGo] at hq
      rcases List.mem_cons.mp hq with he | hm
      · subst he
        refine ⟨rfl, rfl, ?_, ?_⟩
        · show (0 : Int) ≤ (if t < p.arrival_time then p.arrival_time else t) +
            p.burst_time - p.arrival_time - p.burst_time
          split_ifs <;> omega
        · show p.burst_time ≤ (if t < p.arrival_time then p.arrival_time else t) +
            p.burst_time - p.arrival_time
          split_ifs <;> omega
      · exact ih _ q hm

theorem prioProcs_some (fuel : Nat) (ps : List Job) (r : List Job × Metrics × List Event)
    (h : priority_scheduling fuel ps = some r) : prioProcs fuel ps = r.1 := by
  unfold prioProcs
  rw [h]

theorem prioProcs_none (fuel : Nat) (ps : List Job)
    (h : priority_scheduling fuel ps = none) : prioProcs fuel ps = [] := by
  unfold prioProcs
  rw [h]

theorem sjfProcs_some (fuel : Nat) (ps : List Job) (r : List Job × Metrics)
    (h : sjf_scheduling fuel ps = some r) : sjfProcs fuel ps = r.1 := by
  unfold sjfProcs
  rw [h]

theorem sjfProcs_none (fuel : Nat) (ps : List Job)
    (h : sjf_scheduling fuel ps = none) : sjfProcs fuel ps = [] := by
  unfold sjfProcs
  rw [h]

theorem rrProcs_some (fuel : Nat) (ps : List Job) (r : List Job × Metrics)
    (h : round_robin_scheduling fuel ps = some r) : rrProcs fuel ps = r.1 := by
  unfold rrProcs
  rw [h]

theorem rrProcs_none (fuel : Nat) (ps : List Job)
    (h : round_robin_scheduling fuel ps = none) : rrProcs fuel ps = [] := by
  unfold rrProcs
  rw [h]

/-- C1: for every registry of valid pristine jobs within the 20-slot
capacity, each of the four schedulers leaves every completed job of its
post-run list with `turnaround = completion - arrival`,
`waiting = turnaround - burst`, `waiting ≥ 0` and `turnaround ≥ burst`
(the FCFS scheduler completes every job, so the conclusion there is
unconditional). -/
theorem C1_completed_jobs_consistent (ps : List Job)
    (h : ∀ p ∈ ps, ValidJob p ∧ PristineJob p)
    (hcap : ps.length ≤ MAX_PROCESSES) :
    (∀ (fuel : Nat) (p : Job), p ∈ prioProcs fuel ps → 0 < p.completion_time →
      JobConsistent p) ∧
    (∀ p ∈ fcfsProcs ps, JobConsistent p) ∧
    (∀ (fuel : Nat) (p : Job), p ∈ sjfProcs fuel ps → 0 < p.completion_time →
      JobConsistent p) ∧
    (∀ (fuel : Nat) (p : Job), p ∈ rrProcs fuel ps → 0 < p.completion_time →
      JobConsistent p) := by
  refine ⟨?_, ?_, ?_, ?_⟩
  · intro fuel p hp hct
    cases hrun : priority_scheduling fuel ps with
    | none => rw [prioProcs_none fuel ps hrun] at hp; cases hp
    | some r =>
        rw [prioProcs_some fuel ps r hrun] at hp
        unfold priority_scheduling at hrun
        rw [Option.map_eq_some'] at hrun
        obtain ⟨s1, hs1, hr⟩ := hrun
        have hinv := simLoop_some_inv prioStep prioCont PrioInv
          (fun s hs _ => prioStep_inv s hs) fuel (prioInit ps) s1
          (prioInv_init ps h) hs1
        have hr1 : r.1 = s1.procs := by rw [← hr]
        rw [hr1] at hp
        have hJ := hinv.1.2.1 p hp
        unfold JobInv at hJ
        unfold JobConsistent
        omega
  · intro p hp
    exact fcfsGo_consistent ps 0 p hp
  · intro fuel p hp hct
    cases hrun : sjf_scheduling fuel ps with
    | none => rw [sjfProcs_none fuel ps hrun] at hp; cases hp
    | some r =>
        rw [sjfProcs_some fuel ps r hrun] at hp
        unfold sjf_scheduling at hrun
        rw [Option.map_eq_some'] at hrun
        obtain ⟨s1, hs1, hr⟩ := hrun
        have hinv := simLoop_some_inv sjfStep sjfCont SjfInv
          (fun s hs _ => sjfStep_inv s hs) fuel (sjfInit ps) s1
          (sjfInv_init ps h) hs1
        have hr1 : r.1 = s1.procs := by rw [← hr]
        rw [hr1] at hp
        obtain ⟨j, hj, hpj⟩ := List.getElem_of_mem hp
        have hjq : s1.procs[j]? = some p := by
          rw [List.getElem?_eq_getElem hj, hpj]
        have hjlt : j < s1.flags.length := by
          have hfl := hinv.1.2.1
          omega
        have hjf : s1.flags[j]? = some s1.flags[j] := List.getElem?_eq_getElem hjlt
        obtain ⟨hval, hbf, hbt⟩ := hinv.1.2.2.2 j p s1.flags[j] hjq hjf
        cases hfb : s1.flags[j] with
        | false =>
            have hc0 := hbf hfb
            omega
        | true =>
            obtain ⟨h1, h2, h3, h4⟩ := hbt hfb
            unfold JobConsistent
            omega
  · intro fuel p hp hct
    cases hrun : round_robin_scheduling fuel ps with
    | none => rw [rrProcs_none fuel ps hrun] at hp; cases hp
    | some r =>
        rw [rrProcs_some fuel ps r hrun] at hp
        unfold round_robin_scheduling at hrun
        rw [Option.map_eq_some'] at hrun
        obtain ⟨s1, hs1, hr⟩ := hrun
        have hinv := simLoop_some_inv rrStep rrCont RRInv
          (fun s hs _ => rrStep_inv s hs) fuel (rrInit ps) s1
          (rrInv_init ps h) hs1
        have hr1 : r.1 = s1.procs := by rw [← hr]
        rw [hr1] at hp
        have hJ := hinv.1.2.2.1 p hp
        unfold JobInv at hJ
        unfold JobConsistent
        omega

/-- Witness for C1: the three-job example registry is valid, within capacity,
and the theorem yields consistency of its FCFS run. -/
theorem C1_completed_jobs_consistent_witness :
    (∀ p ∈ exampleRegistry, ValidJob p ∧ PristineJob p) ∧
    exampleRegistry.length ≤ MAX_PROCESSES ∧
    (∀ p ∈ fcfsProcs exampleRegistry, JobConsistent p) :=
  ⟨by decide, by decide,
   (C1_completed_jobs_consistent exampleRegistry (by decide) (by decide)).2.1⟩

theorem arrival_le_maxArrival : ∀ (ps : List Job) (p : Job), p ∈ ps →
    p.arrival_time ≤ maxArrival ps := by
  intro ps
  induction ps with
  | nil => intro p hp; cases hp
  | cons q ps ih =>
      intro p hp
      rcases List.mem_cons.mp hp with he | hm
      · subst he
        show p.arrival_time ≤ max p.arrival_time (maxArrival ps)
        omega
      · have := ih p hm
        show p.arrival_time ≤ max q.arrival_time (maxArrival ps)
        omega

theorem prio999_select_none (t : Int) : prioSelect [priority999Job] t = none := by
  simp [prioSelect, prioSelectAux, List.enum, List.enumFrom, priority999Job, mkJob]

theorem prio999_loop_none (fuel : Nat) (s : PrioState)
    (h1 : s.procs = [priority999Job]) (h2 : s.completed = 0) :
    prioLoop fuel s = none := by
  apply simLoop_none_of_inv prioStep prioCont
    (fun s => s.procs = [priority999Job] ∧ s.completed = 0)
  · intro s hs
    simp [prioCont, hs.1, hs.2]
  · intro s hs
    simp [prioStep, hs.1, hs.2, prio999_select_none]
  · exact ⟨h1, h2⟩

/-- Claim C10 counterexample: a single valid pristine job (`arrival 0`,
`burst 1`) whose priority is the selection seed 999 makes the preemptive
priority scheduling loop run forever — `completed` stays 0 while the job is
never selectable, so no fuel bound finishes the loop. -/
theorem C10_counterexample :
    ValidJob priority999Job ∧ PristineJob priority999Job ∧
    prioDiverges [priority999Job] := by
  refine ⟨by decide, by decide, ?_⟩
  intro fuel
  unfold priority_scheduling
  rw [prio999_loop_none fuel (prioInit [priority999Job]) rfl rfl]
  rfl

theorem prioTerm_step (A : Int) (s : PrioState) (h : PrioTermInv A s)
    (hc : prioCont s = true) :
    PrioTermInv A (prioStep s) ∧ prioMeasure A (prioStep s) < prioMeasure A s := by
  obtain ⟨⟨h0, hJ, hcnt⟩, hA⟩ := h
  have hc' : s.completed < s.procs.length := by
    simpa [prioCont] using hc
  rcases hsel : prioSelect s.procs s.time with _ | ⟨next, p⟩
  · have hstep := prioStep_idle s hsel
    have hlt : s.procs.countP remZero < s.procs.length := by omega
    obtain ⟨i, q, hq, hfq⟩ := exists_getElem_of_countP_lt remZero s.procs hlt
    have hqmem := List.getElem?_mem hq
    have hqrem : 0 < q.remaining_time := by
      have hJq := hJ q hqmem
      simp only [remZero, decide_eq_false_iff_not] at hfq
      unfold JobInv at hJq
      omega
    have hqA := hA q hqmem
    have hnone := prioSelect_none_sound s.procs s.time hsel q hqmem
    have htA : s.time < A := by
      by_contra hge
      push_neg at hge
      exact hnone ⟨by omega, hqrem, hqA.2⟩
    refine ⟨?_, ?_⟩
    · rw [hstep]
      exact ⟨⟨by show (0:Int) ≤ s.time + 1; omega,
        fun r hr => JobInv_mono s.time (s.time + 1) r (hJ r hr) (by omega), hcnt⟩, hA⟩
    · rw [hstep]
      show (A - (s.time + 1)).toNat + sumRemNat s.procs <
        (A - s.time).toNat + sumRemNat s.procs
      omega
  · obtain ⟨hq, harr, hrem⟩ := prioSelect_sound s.procs s.time next p hsel
    obtain ⟨ht, hcomp, st, rt, hprocs⟩ := prioStep_proj s next p hsel
    refine ⟨⟨prioStep_inv s ⟨h0, hJ, hcnt⟩, ?_⟩, ?_⟩
    · intro q hqmem
      rw [hprocs] at hqmem
      rcases mem_set_or _ _ _ _ hqmem with he | hm
      · subst he
        exact hA p (List.getElem?_mem hq)
      · exact hA q hm
    · show prioMeasure A (prioStep s) < prioMeasure A s
      unfold prioMeasure sumRemNat
      rw [ht, hprocs]
      have hsum := sum_map_set (fun r => r.remaining_time.toNat) s.procs next
        (prioDoneJob s.time p rt st) p hq
      have hfd : (prioDoneJob s.time p rt st).remaining_time = p.remaining_time - 1 := rfl
      simp only [] at hsum
      rw [hfd] at hsum
      omega

theorem prio_terminates (ps : List Job)
    (h : ∀ p ∈ ps, ValidJob p ∧ PristineJob p ∧ p.priority < 999) :
    ∃ fuel, (priority_scheduling fuel ps).isSome = true := by
  refine ⟨prioMeasure (maxArrival ps) (prioInit ps), ?_⟩
  have hinit : PrioTermInv (maxArrival ps) (prioInit ps) :=
    ⟨prioInv_init ps (fun p hp => ⟨(h p hp).1, (h p hp).2.1⟩),
     fun p hp => ⟨arrival_le_maxArrival ps p hp, (h p hp).2.2⟩⟩
  have hsome := simLoop_isSome_of_measure prioStep prioCont
    (PrioTermInv (maxArrival ps)) (prioMeasure (maxArrival ps))
    (fun s hs hc => prioTerm_step (maxArrival ps) s hs hc)
    (prioMeasure (maxArrival ps) (prioInit ps)) (prioInit ps) hinit (le_refl _)
  obtain ⟨s1, hs1⟩ := Option.isSome_iff_exists.mp hsome
  unfold priority_scheduling
  rw [show prioLoop (prioMeasure (maxArrival ps) (prioInit ps)) (prioInit ps) = some s1
    from hs1]
  rfl

theorem sjfTerm_step (A : Int) (s : SjfState) (h : SjfTermInv A s)
    (hc : sjfCont s = true) :
    SjfTermInv A (sjfStep s) ∧ sjfMeasure A (sjfStep s) < sjfMeasure A s := by
  obtain ⟨⟨h0, hlen, hcnt, hidx⟩, hA⟩ := h
  have hc' : s.completed < s.procs.length := by
    simpa [sjfCont] using hc
  rcases hsel : sjfSelect s.procs s.flags s.time with _ | ⟨i, p⟩
  · have hstep := sjfStep_idle s hsel
    have hltf : s.flags.countP (fun b => b) < s.flags.length := by omega
    obtain ⟨j, b, hbj, hfb⟩ := exists_getElem_of_countP_lt (fun b => b) s.flags hltf
    have hbfalse : b = false := by simpa using hfb
    subst hbfalse
    have hjlt : j < s.procs.length := by
      have := getElem?_some_lt s.flags j false hbj
      omega
    have hq : s.procs[j]? = some s.procs[j] := List.getElem?_eq_getElem hjlt
    have hnone := sjfSelect_none_sound s.procs s.flags s.time hsel j s.procs[j] hq hbj
    have hAj := hA s.procs[j] (List.getElem?_mem hq)
    have htA : s.time < A := by
      by_contra hge
      push_neg at hge
      exact hnone ⟨by omega, hAj.2⟩
    refine ⟨?_, ?_⟩
    · rw [hstep]
      exact ⟨⟨by show (0:Int) ≤ s.time + 1; omega, hlen, hcnt, hidx⟩, hA⟩
    · rw [hstep]
      show (A - (s.time + 1)).toNat + (s.procs.length - s.completed) <
        (A - s.time).toNat + (s.procs.length - s.completed)
      omega
  · have hstep := sjfStep_eq s i p hsel
    obtain ⟨hq, hf, harr, hbst, -⟩ := sjfSelect_spec s.procs s.flags s.time i p hsel
    have hbt : 0 < p.burst_time := by
      obtain ⟨hval, -, -⟩ := hidx i p false hq hf
      omega
    refine ⟨⟨sjfStep_inv s ⟨h0, hlen, hcnt, hidx⟩, ?_⟩, ?_⟩
    · intro q hqmem
      rw [hstep] at hqmem
      have hqmem' : q ∈ s.procs.set i (sjfDoneJob s.time p) := hqmem
      rcases mem_set_or _ _ _ _ hqmem' with he | hm
      · subst he
        exact hA p (List.getElem?_mem hq)
      · exact hA q hm
    · rw [hstep]
      show (A - (s.time + p.burst_time)).toNat +
          ((s.procs.set i (sjfDoneJob s.time p)).length - (s.completed + 1)) <
        (A - s.time).toNat + (s.procs.length - s.completed)
      rw [List.length_set]
      omega

theorem sjf_terminates (ps : List Job)
    (h : ∀ p ∈ ps, ValidJob p ∧ PristineJob p ∧ p.burst_time < 999999) :
    ∃ fuel, (sjf_scheduling fuel ps).isSome = true := by
  refine ⟨sjfMeasure (maxArrival ps) (sjfInit ps), ?_⟩
  have hinit : SjfTermInv (maxArrival ps) (sjfInit ps) :=
    ⟨sjfInv_init ps (fun p hp => ⟨(h p hp).1, (h p hp).2.1⟩),
     fun p hp => ⟨arrival_le_maxArrival ps p hp, (h p hp).2.2⟩⟩
  have hsome := simLoop_isSome_of_measure sjfStep sjfCont
    (SjfTermInv (maxArrival ps)) (sjfMeasure (maxArrival ps))
    (fun s hs hc => sjfTerm_step (maxArrival ps) s hs hc)
    (sjfMeasure (maxArrival ps) (sjfInit ps)) (sjfInit ps) hinit (le_refl _)
  obtain ⟨s1, hs1⟩ := Option.isSome_iff_exists.mp hsome
  unfold sjf_scheduling
  rw [show sjfLoop (sjfMeasure (maxArrival ps) (sjfInit ps)) (sjfInit ps) = some s1
    from hs1]
  rfl

theorem rrTerm_step (A : Int) (s : RRState) (h : RRTermInv A s)
    (hc : rrCont s = true) :
    RRTermInv A (rrStep s) ∧ rrMeasure A (rrStep s) < rrMeasure A s := by
  obtain ⟨hInv, hA⟩ := h
  have hInv' := rrStep_inv s hInv
  obtain ⟨h0, hlen, hJ, hcnt, hq1, hq2, hq3, hnd⟩ := hInv
  have hc' : s.completed < s.procs.length := by
    simpa [rrCont] using hc
  cases hqe : s.queue with
  | nil =>
      refine ⟨⟨hInv', ?_⟩, ?_⟩
      · rw [rrStep_empty_eq s hqe]
        exact hA
      · rw [rrStep_empty_eq s hqe]
        have hlt : s.procs.countP remZero < s.procs.length := by omega
        obtain ⟨i, q, hq, hfq⟩ := exists_getElem_of_countP_lt remZero s.procs hlt
        have hqmem := List.getElem?_mem hq
        have hqrem : 0 < q.remaining_time := by
          have hJq := hJ q hqmem
          simp only [remZero, decide_eq_false_iff_not] at hfq
          unfold JobInv at hJq
          omega
        have hilt : i < s.procs.length := getElem?_some_lt s.procs i q hq
        have hblt : i < s.inq.length := by omega
        have hbi : s.inq[i]? = some s.inq[i] := List.getElem?_eq_getElem hblt
        have hbfalse : s.inq[i] = false := by
          cases hb : s.inq[i] with
          | false => rfl
          | true =>
              have hmq : i ∈ s.queue := hq1 i s.inq[i] hbi hb
              rw [hqe] at hmq
              cases hmq
        have hqA := hA q hqmem
        simp only [rrMeasure]
        rw [hqe, if_pos rfl]
        by_cases hta : A < s.time
        · have hmemscan : i ∈ (rrScan (s.time + 1) none 0 s.procs s.inq).2 := by
            rw [rrScan_news_mem (s.time + 1) none s.procs s.inq 0 hlen i]
            refine ⟨Nat.zero_le i, q, s.inq[i], ?_, ?_, by omega, hqrem, hbfalse, by simp⟩
            · rw [Nat.sub_zero]; exact hq
            · rw [Nat.sub_zero]; exact hbi
          have hne : (rrScan (s.time + 1) none 0 s.procs s.inq).2 ≠ [] :=
            List.ne_nil_of_mem hmemscan
          rw [if_neg hne]
          omega
        · push_neg at hta
          split_ifs <;> omega
  | cons idx rest =>
      have hinqidx : s.inq[idx]? = some true :=
        hq2 idx (by rw [hqe]; exact List.mem_cons_self idx rest)
      have hidxlt : idx < s.procs.length := by
        have := getElem?_some_lt s.inq idx true hinqidx
        omega
      obtain ⟨p, hp⟩ : ∃ q, s.procs[idx]? = some q :=
        ⟨s.procs[idx], List.getElem?_eq_getElem hidxlt⟩
      obtain ⟨hprem, hparr⟩ :=
        hq3 idx p (by rw [hqe]; exact List.mem_cons_self idx rest) hp
      obtain ⟨he1, he2⟩ := rrExec_bounds p hprem
      refine ⟨⟨hInv', ?_⟩, ?_⟩
      · rw [rrStep_busy_eq s idx rest p hqe hp]
        by_cases hr : p.remaining_time - rrExec p = 0
        · rw [if_pos hr]
          intro q hqmem
          have hqmem' : q ∈ (s.procs.set idx (rrTouchJob s.time p)).set idx
              (rrFinJob s.time p) := hqmem
          rw [List.set_set] at hqmem'
          rcases mem_set_or _ _ _ _ hqmem' with he | hm
          · subst he
            exact hA p (List.getElem?_mem hp)
          · exact hA q hm
        · rw [if_neg hr]
          intro q hqmem
          have hqmem' : q ∈ s.procs.set idx (rrTouchJob s.time p) := hqmem
          rcases mem_set_or _ _ _ _ hqmem' with he | hm
          · subst he
            exact hA p (List.getElem?_mem hp)
          · exact hA q hm
      · rw [rrStep_busy_eq s idx rest p hqe hp]
        by_cases hr : p.remaining_time - rrExec p = 0
        · rw [if_pos hr]
          have hsum := sum_map_set (fun r => r.remaining_time.toNat) s.procs idx
            (rrFinJob s.time p) p hp
          simp only [] at hsum
          have hfd : (rrFinJob s.time p).remaining_time = p.remaining_time - rrExec p := rfl
          rw [hfd] at hsum
          simp only [rrMeasure, sumRemNat]
          rw [List.set_set, hqe, if_neg (List.cons_ne_nil idx rest)]
          split_ifs <;> omega
        · rw [if_neg hr]
          have hsum := sum_map_set (fun r => r.remaining_time.toNat) s.procs idx
            (rrTouchJob s.time p) p hp
          simp only [] at hsum
          have hfd : (rrTouchJob s.time p).remaining_time = p.remaining_time - rrExec p := rfl
          rw [hfd] at hsum
          simp only [rrMeasure, sumRemNat]
          rw [hqe, if_neg (List.cons_ne_nil idx rest)]
          split_ifs <;> omega

theorem rr_terminates (ps : List Job)
    (h : ∀ p ∈ ps, ValidJob p ∧ PristineJob p) :
    ∃ fuel, (round_robin_scheduling fuel ps).isSome = true := by
  refine ⟨rrMeasure (maxArrival ps) (rrInit ps), ?_⟩
  have hinit : RRTermInv (maxArrival ps) (rrInit ps) :=
    ⟨rrInv_init ps h, fun p hp => arrival_le_maxArrival ps p hp⟩
  have hsome := simLoop_isSome_of_measure rrStep rrCont
    (RRTermInv (maxArrival ps)) (rrMeasure (maxArrival ps))
    (fun s hs hc => rrTerm_step (maxArrival ps) s hs hc)
    (rrMeasure (maxArrival ps) (rrInit ps)) (rrInit ps) hinit (le_refl _)
  obtain ⟨s1, hs1⟩ := Option.isSome_iff_exists.mp hsome
  unfold round_robin_scheduling
  rw [show rrLoop (rrMeasure (maxArrival ps) (rrInit ps)) (rrInit ps) = some s1
    from hs1]
  rfl

theorem fcfsGo_rem_zero : ∀ (ps : List Job) (t : Int), ∀ q ∈ (fcfsGo t ps).1,
    q.remaining_time = 0 := by
  intro ps
  induction ps with
  | nil =>
      intro t q hq
      simp [fcfsGo] at hq
  | cons p ps ih =>
      intro t q hq
      simp only [fcfsGo] at hq
      rcases List.mem_cons.mp hq with he | hm
      · subst he
        rfl
      · exact ih _ q hm

/-- C10 amended: termination holds under the selection seeds' blind spots
being avoided.  The priority loop terminates when every priority lies below
the 999 seed, the SJF loop when every burst lies below the 999999 seed, and
the round robin loop unconditionally on valid pristine registries; the FCFS
pass is a bounded loop over the registry that fully serves every job.  (As
stated over all valid registries the claim is false: `C10_counterexample`
exhibits a valid job of priority 999 on which the priority loop never
finishes.) -/
theorem C10_amended_termination :
    (∀ ps : List Job, (∀ p ∈ ps, ValidJob p ∧ PristineJob p ∧ p.priority < 999) →
      ∃ fuel, (priority_scheduling fuel ps).isSome = true) ∧
    (∀ ps : List Job, ∀ p ∈ fcfsProcs ps, p.remaining_time = 0) ∧
    (∀ ps : List Job, (∀ p ∈ ps, ValidJob p ∧ PristineJob p ∧ p.burst_time < 999999) →
      ∃ fuel, (sjf_scheduling fuel ps).isSome = true) ∧
    (∀ ps : List Job, (∀ p ∈ ps, ValidJob p ∧ PristineJob p) →
      ∃ fuel, (round_robin_scheduling fuel ps).isSome = true) :=
  ⟨prio_terminates, fun ps p hp => fcfsGo_rem_zero ps 0 p hp,
   sjf_terminates, rr_terminates⟩

/-- Witness for the amended C10: the example registry is valid and pristine,
and the theorem yields a fuel on which the round robin run finishes. -/
theorem C10_amended_termination_witness :
    (∀ p ∈ exampleRegistry, ValidJob p ∧ PristineJob p) ∧
    (∃ fuel, (round_robin_scheduling fuel exampleRegistry).isSome = true) :=
  ⟨by decide, C10_amended_termination.2.2.2 exampleRegistry (by decide)⟩
